import Mathlib

/-!
Verification development for the `ReusableHuffman` codec in
`src/compression_utils.py`.

Shallow embedding conventions:
* Python characters are modelled as `Nat` code points (Python compares
  one-character strings by code point).  The sentinel `ETB_CHAR = "\x17"`
  is the code point 23.
* Python bit strings (`str` of `'0'`/`'1'`) are modelled as `List Bool`
  (`false` = `'0'`, `true` = `'1'`).
* `bytes` values are modelled as `List Nat` of byte values.
* The standard library `queue.PriorityQueue` is a thin wrapper around
  `heapq` on a Python list; `heapq`'s `heappush`/`heappop` (with their
  `_siftdown`/`_siftup` helpers) are modelled verbatim below on
  `List HuffmanNode`, with explicit fuel making every loop structurally
  recursive.  The fuel supplied at each call site is an upper bound on the
  number of loop iterations, so the fuelled functions agree with the
  Python loops on all inputs.
* `set(corpus)` iterates the distinct characters of the corpus in an
  unspecified order; the model takes that enumeration order as an explicit
  argument `chars`, constrained in theorems to be duplicate-free and to
  contain exactly the characters of the corpus.
* Python `dict` is modelled as an association list with in-place
  insert-or-assign (`dict_insert`), preserving Python's insertion-order
  and last-write-wins semantics.
-/

/-- Code point of the End Transmission Block character `"\x17"`. -/
def ETB_CHAR : Nat := 23

/-- Trie node: `char`, `freq` and two optional children, exactly the state
space of the Python `HuffmanNode` class (each child independently present
or absent).  The four constructors enumerate the four `Option × Option`
shapes so that all recursions are plainly structural. -/
inductive HuffmanNode : Type where
  | leaf (char : Nat) (freq : Nat)
  | zeroOnly (char : Nat) (freq : Nat) (zero : HuffmanNode)
  | oneOnly (char : Nat) (freq : Nat) (one : HuffmanNode)
  | inner (char : Nat) (freq : Nat) (zero : HuffmanNode) (one : HuffmanNode)
deriving DecidableEq, Repr

/-- The Python constructor `HuffmanNode(char, freq, zero_child, one_child)`. -/
def HuffmanNode.make (char freq : Nat) : Option HuffmanNode → Option HuffmanNode → HuffmanNode
  | none, none => .leaf char freq
  | some z, none => .zeroOnly char freq z
  | none, some o => .oneOnly char freq o
  | some z, some o => .inner char freq z o

def HuffmanNode.char : HuffmanNode → Nat
  | .leaf c _ => c
  | .zeroOnly c _ _ => c
  | .oneOnly c _ _ => c
  | .inner c _ _ _ => c

def HuffmanNode.freq : HuffmanNode → Nat
  | .leaf _ f => f
  | .zeroOnly _ f _ => f
  | .oneOnly _ f _ => f
  | .inner _ f _ _ => f

def HuffmanNode.zero_child : HuffmanNode → Option HuffmanNode
  | .leaf _ _ => none
  | .zeroOnly _ _ z => some z
  | .oneOnly _ _ _ => none
  | .inner _ _ z _ => some z

def HuffmanNode.one_child : HuffmanNode → Option HuffmanNode
  | .leaf _ _ => none
  | .zeroOnly _ _ _ => none
  | .oneOnly _ _ o => some o
  | .inner _ _ _ o => some o

/-- `HuffmanNode.is_leaf`: both children absent. -/
def HuffmanNode.is_leaf (n : HuffmanNode) : Bool :=
  n.zero_child.isNone && n.one_child.isNone

/-- `HuffmanNode.__lt__`: frequency first, character code as tie-break. -/
def HuffmanNode.lt (a b : HuffmanNode) : Bool :=
  if a.freq = b.freq then decide (a.char < b.char) else decide (a.freq < b.freq)

/-- Placeholder node used as the (never consulted) default of list reads. -/
def nilNode : HuffmanNode := .leaf 0 0

/-- One read of the heap list, with the irrelevant default. -/
def hget (heap : List HuffmanNode) (i : Nat) : HuffmanNode :=
  heap.getD i nilNode

/-! ### The `heapq` model -/

/-- Loop body of CPython's `heapq._siftdown(heap, startpos, pos)` after
reading `newitem = heap[pos]`: walk up the ancestor chain, moving parents
greater than `newitem` down, and finally store `newitem`.  The fuel is an
upper bound on the number of iterations; `pos` strictly decreases each
iteration, so fuel `pos` is always enough, and when the fuel is `0` the
invariant `fuel ≥ pos` forces `pos = 0`, where the fallback agrees with
the loop exit. -/
def siftdownLoop : Nat → List HuffmanNode → Nat → Nat → HuffmanNode → List HuffmanNode
  | 0, heap, _, pos, newitem => heap.set pos newitem
  | fuel + 1, heap, startpos, pos, newitem =>
    if startpos < pos then
      let parentpos := (pos - 1) / 2
      let parent := hget heap parentpos
      if newitem.lt parent then
        siftdownLoop fuel (heap.set pos parent) startpos parentpos newitem
      else
        heap.set pos newitem
    else
      heap.set pos newitem

/-- CPython `heapq._siftdown(heap, startpos, pos)`. -/
def siftdown (heap : List HuffmanNode) (startpos pos : Nat) : List HuffmanNode :=
  siftdownLoop pos heap startpos pos (hget heap pos)

/-- Loop body of CPython's `heapq._siftup(heap, pos)` after reading
`newitem = heap[pos]`: descend, moving the smaller child up, until a
child-free position is reached; returns the array and the final position.
`pos` strictly increases while staying below the (constant) length, so
fuel `heap.length` is always enough; at fuel `0` the forced `pos ≥ length`
makes the fallback agree with the loop exit. -/
def siftupLoop : Nat → List HuffmanNode → Nat → HuffmanNode → List HuffmanNode × Nat
  | 0, heap, pos, newitem => (heap.set pos newitem, pos)
  | fuel + 1, heap, pos, newitem =>
    let endpos := heap.length
    let childpos := 2 * pos + 1
    if childpos < endpos then
      let rightpos := childpos + 1
      let c :=
        if rightpos < endpos && !((hget heap childpos).lt (hget heap rightpos)) then
          rightpos
        else childpos
      siftupLoop fuel (heap.set pos (hget heap c)) c newitem
    else
      (heap.set pos newitem, pos)

/-- CPython `heapq._siftup(heap, pos)`: descend to a child-free position,
place `newitem` there, then repair upwards with `_siftdown`. -/
def siftup (heap : List HuffmanNode) (pos : Nat) : List HuffmanNode :=
  let newitem := hget heap pos
  let hp := siftupLoop heap.length heap pos newitem
  siftdown hp.1 pos hp.2

/-- CPython `heapq.heappush`. -/
def heappush (heap : List HuffmanNode) (item : HuffmanNode) : List HuffmanNode :=
  siftdown (heap ++ [item]) 0 heap.length

/-- CPython `heapq.heappop`: returns the popped item and the remaining
heap, or `none` on an empty heap (where `PriorityQueue.get` would block). -/
def heappop (heap : List HuffmanNode) : Option (HuffmanNode × List HuffmanNode) :=
  match heap.getLast? with
  | none => none
  | some lastelt =>
    let rest := heap.dropLast
    match rest with
    | [] => some (lastelt, [])
    | _ :: _ => some (hget rest 0, siftup (rest.set 0 lastelt) 0)

/-! ### `ReusableHuffman` -/

/-- Loop of `ReusableHuffman.grow_trie`: while more than one node remains,
pop the two smallest, merge them and push the merged node.  Each iteration
shrinks the heap by one element, so fuel `heap.length` is always enough;
at fuel `0` the forced `length ≤ 1` makes the fallback agree with the
loop exit. -/
def growTrieLoop : Nat → List HuffmanNode → List HuffmanNode
  | 0, heap => heap
  | fuel + 1, heap =>
    if 1 < heap.length then
      match heappop heap with
      | none => heap
      | some (zero_item, h1) =>
        match heappop h1 with
        | none => heap
        | some (one_item, h2) =>
          let new_char := if one_item.char < zero_item.char then one_item.char else zero_item.char
          let node := HuffmanNode.make new_char (zero_item.freq + one_item.freq)
            (some zero_item) (some one_item)
          growTrieLoop fuel (heappush h2 node)
    else heap

/-- `ReusableHuffman.grow_trie`: merge until one node remains, then return
it (`trie.get()`); `none` if the queue was empty (where Python blocks). -/
def grow_trie (trie : List HuffmanNode) : Option HuffmanNode :=
  (heappop (growTrieLoop trie.length trie)).map Prod.fst

/-- Encoding maps: Python `dict[str, str]` as an insertion-ordered
association list from code points to bit strings. -/
abbrev EncMap : Type := List (Nat × List Bool)

/-- Python `d[k] = v`: assign in place if the key exists, else append. -/
def dict_insert (d : EncMap) (k : Nat) (v : List Bool) : EncMap :=
  match d with
  | [] => [(k, v)]
  | (k', v') :: rest => if k' = k then (k', v) :: rest else (k', v') :: dict_insert rest k v

/-- Python `d.update(e)`: insert-or-assign every item of `e` in order. -/
def dict_update (d e : EncMap) : EncMap :=
  e.foldl (fun acc kv => dict_insert acc kv.1 kv.2) d

/-- Python `d[k]` / `k in d` probe: the value stored for key `k`. -/
def dict_lookup (d : EncMap) (k : Nat) : Option (List Bool) :=
  match d with
  | [] => none
  | (k', v) :: rest => if k' = k then some v else dict_lookup rest k

/-- `ReusableHuffman.create_encoding_map` specialized to a present node:
record the path at leaves, otherwise update with both children's maps
(the recursion on an absent child contributes the empty dict). -/
def create_encoding_map_node : HuffmanNode → List Bool → EncMap
  | .leaf c _, byte => dict_insert [] c byte
  | .zeroOnly _ _ z, byte =>
    dict_update (dict_update [] (create_encoding_map_node z (byte ++ [false]))) []
  | .oneOnly _ _ o, byte =>
    dict_update (dict_update [] []) (create_encoding_map_node o (byte ++ [true]))
  | .inner _ _ z o, byte =>
    dict_update (dict_update [] (create_encoding_map_node z (byte ++ [false])))
      (create_encoding_map_node o (byte ++ [true]))

/-- `ReusableHuffman.create_encoding_map`. -/
def create_encoding_map (node : Option HuffmanNode) (byte : List Bool) : EncMap :=
  match node with
  | none => []
  | some n => create_encoding_map_node n byte

/-- The codec state after `__init__`: the stored encoding map and the
(possibly never assigned, hence `Option`) trie root. -/
structure ReusableHuffman : Type where
  encoding_map : EncMap
  trie_root : Option HuffmanNode
deriving DecidableEq

/-- The priority queue built by `__init__`: the sentinel node of
frequency 1 is pushed first, then one leaf per distinct character with
its occurrence count, following the enumeration order `chars`. -/
def initial_heap (corpus chars : List Nat) : List HuffmanNode :=
  chars.foldl
    (fun h item => heappush h (HuffmanNode.make item (corpus.count item) none none))
    (heappush [] (HuffmanNode.make ETB_CHAR 1 none none))

/-- `ReusableHuffman.__init__(corpus)`.  `chars` is the iteration order of
`set(corpus)` (see the file comment); the corpus leaves are only pushed,
the trie only grown, when the corpus is non-empty, and Python never
assigns `_trie_root` when the corpus is empty, modelled by
`trie_root := none`. -/
def construct (corpus : List Nat) (chars : List Nat) : ReusableHuffman :=
  if 0 < corpus.length then
    { encoding_map := create_encoding_map (grow_trie (initial_heap corpus chars)) [],
      trie_root := grow_trie (initial_heap corpus chars) }
  else
    { encoding_map := [(ETB_CHAR, [false])], trie_root := none }

/-- `ReusableHuffman.get_encoding_map` (the deep copy is the value itself). -/
def get_encoding_map (self : ReusableHuffman) : EncMap :=
  self.encoding_map

/-! ### Byte/bit collaborators -/

/-- Modelled from the spec: `byte_utils.byte_to_bitstring` lives in
`byte_utils.py`, which is not under `src/`; §6 of the spec defines it as
the 8-character bit string of a byte, most-significant bit first. -/
def byte_to_bitstring (b : Nat) : List Bool :=
  (List.range 8).map (fun i => b.testBit (7 - i))

/-- Modelled from the spec: `byte_utils.bitstrings_to_bytes` is not under
`src/`; §6 of the spec defines it as one byte per 8-character bit string,
same (MSB-first) bit order. -/
def bitstrings_to_bytes (l : List (List Bool)) : List Nat :=
  l.map (fun bits => bits.foldl (fun acc b => 2 * acc + (if b then 1 else 0)) 0)

/-! ### Compression and decompression -/

/-- State of the compression loop: the pending bit buffer `bitstr` and the
completed 8-bit groups `final_bitstr`. -/
def compressStep (st : List Bool × List (List Bool)) (b : Bool) : List Bool × List (List Bool) :=
  if st.1.length = 8 then ([b], st.2 ++ [st.1])
  else (st.1 ++ [b], st.2)

/-- `ReusableHuffman.compress_message`: append the sentinel, emit each
known character's codeword into the bit buffer (flushing full bytes), and
finally pad-and-flush only a buffer holding fewer than 8 bits. -/
def compress_message (self : ReusableHuffman) (message : List Nat) : List Nat :=
  let encode_map := get_encoding_map self
  let msg := message ++ [ETB_CHAR]
  let st := msg.foldl
    (fun st char =>
      match dict_lookup encode_map char with
      | some cw => cw.foldl compressStep st
      | none => st)
    ([], [])
  let final_bitstr :=
    if st.1.length < 8 then st.2 ++ [st.1 ++ List.replicate (8 - st.1.length) false]
    else st.2
  bitstrings_to_bytes final_bitstr

/-- Failure kinds of `decompress`; reading the never-assigned
`_trie_root` attribute raises in Python, modelled as this error value. -/
inductive CodecError : Type where
  | uninitializedCodec
deriving DecidableEq, Repr

/-- Bit-walking loop of `ReusableHuffman.decompress`: follow present
children, emit a character and restart at the root on non-sentinel
leaves, stop at the sentinel. -/
def decompressLoop (root : HuffmanNode) : List Bool → HuffmanNode → List Nat → List Nat
  | [], _, decoded => decoded
  | bit :: rest, node, decoded =>
    let node' :=
      if bit = false then
        match node.zero_child with
        | some z => z
        | none => node
      else
        match node.one_child with
        | some o => o
        | none => node
    if node'.is_leaf then
      if node'.char = ETB_CHAR then decoded
      else decompressLoop root rest root (decoded ++ [node'.char])
    else decompressLoop root rest node' decoded

/-- `ReusableHuffman.decompress`. -/
def decompress (self : ReusableHuffman) (compressed_msg : List Nat) : Except CodecError (List Nat) :=
  let encoded_msg := compressed_msg.foldl (fun acc byte => acc ++ byte_to_bitstring byte) []
  match self.trie_root with
  | none => .error .uninitializedCodec
  | some trie_root => .ok (decompressLoop trie_root encoded_msg trie_root [])

/-! ### Concrete corpora used by the claims -/

/-- The worked-example corpus `"ABBBCC"` as code points. -/
def corpusABBBCC : List Nat := [65, 66, 66, 66, 67, 67]

/-- The worked-example codec, with the distinct characters enumerated in
the order `A`, `B`, `C`. -/
def codecABBBCC : ReusableHuffman := construct corpusABBBCC [65, 66, 67]

/-- The message `"BBBBB"` whose sentinel-terminated encoding is exactly 8
bits (`0 0 0 0 0` then `1 0 0`), leaving the full byte unflushed. -/
def msgBBBBB : List Nat := [66, 66, 66, 66, 66]

/-- The wire format described by the spec (and claim C2): concatenation of
the codewords of the message's characters, then the sentinel's codeword,
then 0 to 7 zero padding bits completing the final byte.  This definition
follows the spec's words, to be compared against `compress_message`. -/
def wire_format_bits (m : EncMap) (message : List Nat) : List Bool :=
  let content := (message.map (fun c => (dict_lookup m c).getD [])).flatten
    ++ (dict_lookup m ETB_CHAR).getD []
  content ++ List.replicate ((8 - content.length % 8) % 8) false

/-- The bit content of a byte sequence, read MSB-first per byte. -/
def bytes_to_bits (bs : List Nat) : List Bool :=
  bs.foldl (fun acc byte => acc ++ byte_to_bitstring byte) []

instance {ε α : Type} [DecidableEq ε] [DecidableEq α] : DecidableEq (Except ε α) := fun a b =>
  match a, b with
  | .ok x, .ok y => decidable_of_iff (x = y) (by simp)
  | .error x, .error y => decidable_of_iff (x = y) (by simp)
  | .ok _, .error _ => isFalse (by simp)
  | .error _, .ok _ => isFalse (by simp)

/-! ### Claim theorems: concrete evaluations -/

/-- C9: the encoding map of the codec constructed from the empty corpus is
exactly the one-entry map sending the sentinel to the single bit `"0"`. -/
theorem c9_empty_corpus_encoding_map :
    get_encoding_map (construct [] []) = [(ETB_CHAR, [false])] := by
  decide

/-- C3 counterexample: on the empty-corpus codec, decompressing the output
of `compress_message ""` does not return `""`; the claimed round trip
fails because `decompress` hits the never-assigned trie root. -/
theorem c3_counterexample :
    ¬ decompress (construct [] []) (compress_message (construct [] []) []) =
        Except.ok ([] : List Nat) := by
  decide

/-- C3 amended: on the empty-corpus codec, `compress_message ""` succeeds
and returns the single byte `0x00` (sentinel bit `0` plus seven padding
bits), but decompressing it fails with the uninitialized-codec error
(the empty-corpus constructor never builds a trie), so the round trip
does not return `""`. -/
theorem c3_amended :
    compress_message (construct [] []) [] = [0] ∧
    decompress (construct [] []) (compress_message (construct [] []) []) =
      Except.error CodecError.uninitializedCodec := by
  decide

/-- C1 is refuted by the code on the in-alphabet message `"BBBBB"` over
the corpus `"ABBBCC"`: its sentinel-terminated encoding is exactly 8 bits
(`00000` then `100`), the 8-bit buffer is never flushed (the code only
flushes a final buffer of fewer than 8 bits), so compression returns the
empty byte string and decompression returns `""`, not `"BBBBB"`. -/
theorem c1_code_bug :
    compress_message codecABBBCC msgBBBBB = [] ∧
    decompress codecABBBCC (compress_message codecABBBCC msgBBBBB) =
      Except.ok ([] : List Nat) ∧
    ([] : List Nat) ≠ msgBBBBB := by
  decide

/-- C2 is refuted by the code on the same input: the bit content of the
compressed output is empty, while the wire format stated by the claim
(codewords, sentinel codeword, zero padding to a byte) is the eight bits
`00000100`. -/
theorem c2_code_bug :
    bytes_to_bits (compress_message codecABBBCC msgBBBBB) = [] ∧
    wire_format_bits (get_encoding_map codecABBBCC) msgBBBBB =
      [false, false, false, false, false, true, false, false] ∧
    ([] : List Bool) ≠
      [false, false, false, false, false, true, false, false] := by
  decide

/-! ### C4: the claim as stated, and its counterexample -/

/-- A list is a valid enumeration order of `set(corpus)` when it is
duplicate-free and holds exactly the characters of the corpus. -/
def ValidCharOrder (corpus chars : List Nat) : Prop :=
  chars.Nodup ∧ ∀ c, c ∈ chars ↔ c ∈ corpus

/-- C4 as stated: codecs constructed from corpora with identical
character-frequency multisets have identical (as key-value mappings)
encoding maps regardless of the enumeration order of distinct
characters. -/
def DeterminismClaim : Prop :=
  ∀ corpus₁ chars₁ corpus₂ chars₂ : List Nat,
    ValidCharOrder corpus₁ chars₁ → ValidCharOrder corpus₂ chars₂ →
    (∀ c, corpus₁.count c = corpus₂.count c) →
    ∀ c, dict_lookup (get_encoding_map (construct corpus₁ chars₁)) c =
      dict_lookup (get_encoding_map (construct corpus₂ chars₂)) c

/-- C4 counterexample: on the corpus `"\x17\x17abc"` (code points
`[23, 23, 97, 98, 99]`, which contains the sentinel), the enumeration
orders `[23, 97, 98, 99]` and `[97, 23, 98, 99]` build different maps:
the sentinel's codeword is `110` in the first and `11` in the second.
The heap then holds two nodes with equal frequency and equal tie-break
character (the sentinel leaf of frequency 2 and a merged subtree of
frequency 2 whose representative character is the sentinel), and which
one is popped first depends on the heap's array layout, which depends on
the insertion order. -/
theorem c4_counterexample : ¬ DeterminismClaim := by
  intro h
  have h23 := h [23, 23, 97, 98, 99] [23, 97, 98, 99] [23, 23, 97, 98, 99] [97, 23, 98, 99]
    ⟨by decide, by intro c; simp only [List.mem_cons, List.not_mem_nil, or_false]; omega⟩
    ⟨by decide, by intro c; simp only [List.mem_cons, List.not_mem_nil, or_false]; omega⟩
    (fun _ => rfl) 23
  revert h23
  decide

/-! ### C7: unknown characters contribute nothing -/

/-- One character of the compression loop: emit the codeword bits of a
known character into the buffer state, skip an unknown character. -/
def compressChar (m : EncMap) (st : List Bool × List (List Bool)) (char : Nat) :
    List Bool × List (List Bool) :=
  match dict_lookup m char with
  | some cw => cw.foldl compressStep st
  | none => st

lemma compress_message_eq_fold (self : ReusableHuffman) (message : List Nat) :
    compress_message self message =
      (let st := (message ++ [ETB_CHAR]).foldl (compressChar (get_encoding_map self)) ([], []);
        bitstrings_to_bytes
          (if st.1.length < 8 then st.2 ++ [st.1 ++ List.replicate (8 - st.1.length) false]
           else st.2)) := rfl

lemma foldl_compressChar_filter (m : EncMap) (l : List Nat)
    (st : List Bool × List (List Bool)) :
    l.foldl (compressChar m) st =
      (l.filter (fun c => (dict_lookup m c).isSome)).foldl (compressChar m) st := by
  induction l generalizing st with
  | nil => rfl
  | cons c l ih =>
    by_cases h : (dict_lookup m c).isSome
    · rw [List.foldl_cons, List.filter_cons, if_pos h, List.foldl_cons, ih]
    · have hn : dict_lookup m c = none := Option.not_isSome_iff_eq_none.mp h
      have hst : compressChar m st c = st := by simp [compressChar, hn]
      rw [List.foldl_cons, List.filter_cons, hst, ih]
      simp [hn]

/-- C7: compression never fails on characters absent from the encoding
map; they contribute zero bits, so compressing a message equals
compressing the message with all unknown characters removed. -/
theorem c7_unknown_characters (corpus chars message : List Nat) :
    compress_message (construct corpus chars) message =
      compress_message (construct corpus chars)
        (message.filter
          (fun c => (dict_lookup (get_encoding_map (construct corpus chars)) c).isSome)) := by
  rw [compress_message_eq_fold, compress_message_eq_fold]
  have hfold :
      (message ++ [ETB_CHAR]).foldl (compressChar (get_encoding_map (construct corpus chars)))
          ([], []) =
        ((message.filter
              (fun c => (dict_lookup (get_encoding_map (construct corpus chars)) c).isSome))
            ++ [ETB_CHAR]).foldl
          (compressChar (get_encoding_map (construct corpus chars))) ([], []) := by
    rw [foldl_compressChar_filter, foldl_compressChar_filter
      (l := message.filter _ ++ [ETB_CHAR])]
    rw [List.filter_append, List.filter_append, List.filter_filter]
    simp
  rw [hfold]

/-! ### C5: the encoding map is a prefix code -/

/-- `codePre a b`: the bit string `a` is a prefix of the bit string `b`. -/
def codePre (a b : List Bool) : Prop := ∃ t, a ++ t = b

/-- The `(character, path)` pairs of the leaves of a trie, in the order
`create_encoding_map` records them, with paths relative to the subtree. -/
def leaf_path_entries : HuffmanNode → List (Nat × List Bool)
  | .leaf c _ => [(c, [])]
  | .zeroOnly _ _ z => (leaf_path_entries z).map (fun kv => (kv.1, false :: kv.2))
  | .oneOnly _ _ o => (leaf_path_entries o).map (fun kv => (kv.1, true :: kv.2))
  | .inner _ _ z o =>
    (leaf_path_entries z).map (fun kv => (kv.1, false :: kv.2)) ++
      (leaf_path_entries o).map (fun kv => (kv.1, true :: kv.2))

lemma dict_lookup_mem {d : EncMap} {k : Nat} {v : List Bool} (h : dict_lookup d k = some v) :
    (k, v) ∈ d := by
  induction d with
  | nil => simp [dict_lookup] at h
  | cons kv rest ih =>
    obtain ⟨k₀, v₀⟩ := kv
    rw [dict_lookup] at h
    by_cases hk : k₀ = k
    · rw [if_pos hk] at h
      subst hk
      obtain rfl : v₀ = v := Option.some.inj h
      exact List.mem_cons_self _ _
    · rw [if_neg hk] at h
      exact List.mem_cons_of_mem _ (ih h)

lemma mem_dict_insert {d : EncMap} {k' : Nat} {v' : List Bool} {kv : Nat × List Bool}
    (h : kv ∈ dict_insert d k' v') : kv ∈ d ∨ kv = (k', v') := by
  induction d with
  | nil =>
    rw [dict_insert] at h
    simp at h
    exact Or.inr h
  | cons kv₀ rest ih =>
    obtain ⟨k₀, v₀⟩ := kv₀
    rw [dict_insert] at h
    by_cases hk : k₀ = k'
    · rw [if_pos hk] at h
      rcases List.mem_cons.mp h with h | h
      · subst hk
        exact Or.inr (by simpa using h)
      · exact Or.inl (List.mem_cons_of_mem _ h)
    · rw [if_neg hk] at h
      rcases List.mem_cons.mp h with h | h
      · exact Or.inl (by simp [h])
      · rcases ih h with h | h
        · exact Or.inl (List.mem_cons_of_mem _ h)
        · exact Or.inr h
  
lemma mem_dict_update {d e : EncMap} {kv : Nat × List Bool} (h : kv ∈ dict_update d e) :
    kv ∈ d ∨ kv ∈ e := by
  induction e generalizing d with
  | nil => exact Or.inl h
  | cons kv₀ e ih =>
    rcases ih h with h' | h'
    · rcases mem_dict_insert h' with h'' | h''
      · exact Or.inl h''
      · exact Or.inr (by simp [h''])
    · exact Or.inr (List.mem_cons_of_mem _ h')

lemma create_mem_flat {n : HuffmanNode} {p : List Bool} {k : Nat} {v : List Bool}
    (h : (k, v) ∈ create_encoding_map_node n p) :
    ∃ s, (k, s) ∈ leaf_path_entries n ∧ v = p ++ s := by
  induction n generalizing p with
  | leaf c f =>
    rw [create_encoding_map_node, dict_insert] at h
    simp at h
    exact ⟨[], by simp [leaf_path_entries, h.1, h.2]⟩
  | zeroOnly c f z ihz =>
    rw [create_encoding_map_node] at h
    rcases mem_dict_update h with h' | h'
    · rcases mem_dict_update h' with h'' | h''
      · simp at h''
      · obtain ⟨s, hs, hv⟩ := ihz h''
        exact ⟨false :: s, by simp [leaf_path_entries, hs], by simp [hv]⟩
    · simp at h'
  | oneOnly c f o iho =>
    rw [create_encoding_map_node] at h
    rcases mem_dict_update h with h' | h'
    · rcases mem_dict_update h' with h'' | h'' <;> simp at h''
    · obtain ⟨s, hs, hv⟩ := iho h'
      exact ⟨true :: s, by simp [leaf_path_entries, hs], by simp [hv]⟩
  | inner c f z o ihz iho =>
    rw [create_encoding_map_node] at h
    rcases mem_dict_update h with h' | h'
    · rcases mem_dict_update h' with h'' | h''
      · simp at h''
      · obtain ⟨s, hs, hv⟩ := ihz h''
        refine ⟨false :: s, ?_, by simp [hv]⟩
        rw [leaf_path_entries]
        exact List.mem_append_left _ (by simp [hs])
    · obtain ⟨s, hs, hv⟩ := iho h'
      refine ⟨true :: s, ?_, by simp [hv]⟩
      rw [leaf_path_entries]
      exact List.mem_append_right _ (by simp [hs])

lemma lpe_codePre_eq :
    ∀ (n : HuffmanNode) (kv₁ kv₂ : Nat × List Bool), kv₁ ∈ leaf_path_entries n →
      kv₂ ∈ leaf_path_entries n → codePre kv₁.2 kv₂.2 → kv₁ = kv₂ := by
  intro n
  induction n with
  | leaf c f =>
    intro kv₁ kv₂ h₁ h₂ _
    simp [leaf_path_entries] at h₁ h₂
    rw [h₁, h₂]
  | zeroOnly c f z ihz =>
    intro kv₁ kv₂ h₁ h₂ hpre
    simp only [leaf_path_entries, List.mem_map] at h₁ h₂
    obtain ⟨a₁, ha₁, rfl⟩ := h₁
    obtain ⟨a₂, ha₂, rfl⟩ := h₂
    obtain ⟨t, ht⟩ := hpre
    simp only [List.cons_append, List.cons.injEq] at ht
    have := ihz a₁ a₂ ha₁ ha₂ ⟨t, ht.2⟩
    rw [this]
  | oneOnly c f o iho =>
    intro kv₁ kv₂ h₁ h₂ hpre
    simp only [leaf_path_entries, List.mem_map] at h₁ h₂
    obtain ⟨a₁, ha₁, rfl⟩ := h₁
    obtain ⟨a₂, ha₂, rfl⟩ := h₂
    obtain ⟨t, ht⟩ := hpre
    simp only [List.cons_append, List.cons.injEq] at ht
    have := iho a₁ a₂ ha₁ ha₂ ⟨t, ht.2⟩
    rw [this]
  | inner c f z o ihz iho =>
    intro kv₁ kv₂ h₁ h₂ hpre
    simp only [leaf_path_entries, List.mem_append, List.mem_map] at h₁ h₂
    obtain ⟨t, ht⟩ := hpre
    rcases h₁ with ⟨a₁, ha₁, rfl⟩ | ⟨a₁, ha₁, rfl⟩ <;>
      rcases h₂ with ⟨a₂, ha₂, rfl⟩ | ⟨a₂, ha₂, rfl⟩ <;>
        simp only [List.cons_append, List.cons.injEq] at ht
    · have := ihz a₁ a₂ ha₁ ha₂ ⟨t, ht.2⟩
      rw [this]
    · exact absurd ht.1 (by simp)
    · exact absurd ht.1 (by simp)
    · have := iho a₁ a₂ ha₁ ha₂ ⟨t, ht.2⟩
      rw [this]

/-- C5: in the encoding map built from any corpus, the codewords of two
distinct characters are never in the prefix relation (the map is a valid
prefix code). -/
theorem c5_prefix_free (corpus chars : List Nat) (c₁ c₂ : Nat) (v₁ v₂ : List Bool)
    (h₁ : dict_lookup (get_encoding_map (construct corpus chars)) c₁ = some v₁)
    (h₂ : dict_lookup (get_encoding_map (construct corpus chars)) c₂ = some v₂)
    (hne : c₁ ≠ c₂) : ¬ codePre v₁ v₂ := by
  intro hpre
  by_cases hc : 0 < corpus.length
  · rw [get_encoding_map, construct, if_pos hc] at h₁ h₂
    dsimp only at h₁ h₂
    cases hroot : grow_trie (initial_heap corpus chars) with
    | none =>
      rw [hroot] at h₁
      simp [create_encoding_map, dict_lookup] at h₁
    | some n =>
      rw [hroot] at h₁ h₂
      rw [show create_encoding_map (some n) [] = create_encoding_map_node n [] from rfl] at h₁ h₂
      obtain ⟨s₁, hs₁, hv₁⟩ := create_mem_flat (dict_lookup_mem h₁)
      obtain ⟨s₂, hs₂, hv₂⟩ := create_mem_flat (dict_lookup_mem h₂)
      rw [List.nil_append] at hv₁ hv₂
      subst hv₁; subst hv₂
      have := lpe_codePre_eq n (c₁, v₁) (c₂, v₂) hs₁ hs₂ hpre
      exact hne (congrArg Prod.fst this)
  · rw [get_encoding_map, construct, if_neg hc] at h₁ h₂
    simp only [dict_lookup] at h₁ h₂
    by_cases h23 : ETB_CHAR = c₁
    · rw [if_pos h23] at h₁
      by_cases h23' : ETB_CHAR = c₂
      · exact hne (h23 ▸ h23' ▸ rfl)
      · rw [if_neg h23'] at h₂
        simp [dict_lookup] at h₂
    · rw [if_neg h23] at h₁
      simp [dict_lookup] at h₁

/-- Witness for C5 at a concrete input: on the `"ABBBCC"` codec, the
codewords of `B` and `C` are not prefix-related. -/
theorem c5_prefix_free_witness :
    dict_lookup (get_encoding_map codecABBBCC) 66 = some [false] ∧
    dict_lookup (get_encoding_map codecABBBCC) 67 = some [true, true] ∧
    (66 : Nat) ≠ 67 ∧ ¬ codePre [false] [true, true] :=
  ⟨by decide, by decide, by decide,
    c5_prefix_free corpusABBBCC [65, 66, 67] 66 67 [false] [true, true]
      (by decide) (by decide) (by decide)⟩

/-! ### Heap length facts and C8 -/

lemma siftdownLoop_length (fuel : Nat) : ∀ (h : List HuffmanNode) (s pos : Nat) (x : HuffmanNode),
    (siftdownLoop fuel h s pos x).length = h.length := by
  induction fuel with
  | zero => intro h s pos x; simp [siftdownLoop]
  | succ fuel ih =>
    intro h s pos x
    simp only [siftdownLoop]
    split_ifs with h1 h2
    · rw [ih, List.length_set]
    · rw [List.length_set]
    · rw [List.length_set]

lemma siftupLoop_length (fuel : Nat) : ∀ (h : List HuffmanNode) (pos : Nat) (x : HuffmanNode),
    (siftupLoop fuel h pos x).1.length = h.length := by
  induction fuel with
  | zero => intro h pos x; simp [siftupLoop]
  | succ fuel ih =>
    intro h pos x
    simp only [siftupLoop]
    split_ifs with h1 h2
    · rw [ih, List.length_set]
    · rw [ih, List.length_set]
    · exact List.length_set h pos x

lemma siftdown_length (h : List HuffmanNode) (s pos : Nat) :
    (siftdown h s pos).length = h.length :=
  siftdownLoop_length _ _ _ _ _

lemma siftup_length (h : List HuffmanNode) (pos : Nat) :
    (siftup h pos).length = h.length := by
  simp only [siftup]
  rw [siftdown_length, siftupLoop_length]

lemma heappush_length (h : List HuffmanNode) (x : HuffmanNode) :
    (heappush h x).length = h.length + 1 := by
  simp only [heappush]
  rw [siftdown_length]
  simp

lemma heappush_ne_nil (h : List HuffmanNode) (x : HuffmanNode) : heappush h x ≠ [] := by
  intro hc
  have := heappush_length h x
  rw [hc] at this
  simp at this

lemma heappop_isSome {h : List HuffmanNode} (hne : h ≠ []) : ∃ x r, heappop h = some (x, r) := by
  cases hl : h.getLast? with
  | none => exact absurd (List.getLast?_eq_none_iff.mp hl) hne
  | some x =>
    unfold heappop
    rw [hl]
    cases hd : h.dropLast with
    | nil => exact ⟨x, [], rfl⟩
    | cons y ys => exact ⟨hget (y :: ys) 0, _, rfl⟩

lemma heappop_length {h : List HuffmanNode} {x : HuffmanNode} {r : List HuffmanNode}
    (hp : heappop h = some (x, r)) : r.length + 1 = h.length := by
  unfold heappop at hp
  cases hl : h.getLast? with
  | none => rw [hl] at hp; simp at hp
  | some y =>
    have hne : h ≠ [] := by
      intro hc
      rw [hc] at hl
      simp at hl
    rw [hl] at hp
    cases hd : h.dropLast with
    | nil =>
      rw [hd] at hp
      obtain ⟨rfl, rfl⟩ : y = x ∧ ([] : List HuffmanNode) = r := by
        simpa using hp
      have h1 : h.length - 1 = 0 := by
        rw [← List.length_dropLast, hd]
        rfl
      have h2 : 1 ≤ h.length := List.length_pos.mpr hne
      simp
      omega
    | cons z zs =>
      rw [hd] at hp
      obtain ⟨rfl, rfl⟩ : hget (z :: zs) 0 = x ∧ siftup ((z :: zs).set 0 y) 0 = r := by
        simpa using hp
      rw [siftup_length, List.length_set, ← hd, List.length_dropLast]
      have h2 : 1 ≤ h.length := List.length_pos.mpr hne
      omega

lemma growTrieLoop_ne_nil (fuel : Nat) : ∀ h : List HuffmanNode, h ≠ [] →
    growTrieLoop fuel h ≠ [] := by
  induction fuel with
  | zero => intro h hne; exact hne
  | succ fuel ih =>
    intro h hne
    rw [growTrieLoop]
    split
    · cases hp : heappop h with
      | none => exact hne
      | some p =>
        obtain ⟨z, h1⟩ := p
        dsimp only
        cases hp1 : heappop h1 with
        | none => exact hne
        | some p1 =>
          obtain ⟨o, h2⟩ := p1
          dsimp only
          exact ih _ (heappush_ne_nil _ _)
    · exact hne

lemma foldl_push_length (g : Nat → HuffmanNode) :
    ∀ (l : List Nat) (s : List HuffmanNode),
      (l.foldl (fun h item => heappush h (g item)) s).length = s.length + l.length := by
  intro l
  induction l with
  | nil => intro s; rfl
  | cons c l ih =>
    intro s
    rw [List.foldl_cons, ih, heappush_length]
    simp
    omega

lemma initial_heap_length (corpus chars : List Nat) :
    (initial_heap corpus chars).length = 1 + chars.length := by
  rw [initial_heap, foldl_push_length, heappush_length]
  simp

lemma initial_heap_ne_nil (corpus chars : List Nat) : initial_heap corpus chars ≠ [] := by
  intro hc
  have := initial_heap_length corpus chars
  rw [hc] at this
  simp at this
  omega

lemma grow_trie_initial_isSome (corpus chars : List Nat) :
    ∃ n, grow_trie (initial_heap corpus chars) = some n := by
  rw [grow_trie]
  obtain ⟨x, r, hp⟩ :=
    heappop_isSome (growTrieLoop_ne_nil _ _ (initial_heap_ne_nil corpus chars))
  exact ⟨x, by rw [hp]; rfl⟩

/-- C8: the constructor leaves the trie unbuilt exactly when the corpus is
empty, and decompressing with an unbuilt trie fails with the
uninitialized-codec error (Python raises on the missing `_trie_root`
attribute) instead of returning a value. -/
theorem c8_uninitialized_decompress (corpus chars : List Nat) :
    ((construct corpus chars).trie_root = none ↔ corpus = []) ∧
    ∀ bs, (construct corpus chars).trie_root = none →
      decompress (construct corpus chars) bs = Except.error CodecError.uninitializedCodec := by
  constructor
  · constructor
    · intro hn
      by_cases hc : 0 < corpus.length
      · rw [construct, if_pos hc] at hn
        dsimp only at hn
        obtain ⟨n, hsome⟩ := grow_trie_initial_isSome corpus chars
        rw [hsome] at hn
        exact absurd hn (by simp)
      · cases corpus with
        | nil => rfl
        | cons c cs => exact absurd (by simp : 0 < (c :: cs).length) hc
    · intro hc
      subst hc
      rfl
  · intro bs hn
    rw [decompress, hn]

/-- Witness for C8 at a concrete input: the empty-corpus codec has no trie
root and decompressing the byte `0x00` with it fails. -/
theorem c8_uninitialized_decompress_witness :
    (construct [] []).trie_root = none ∧
    decompress (construct [] []) [0] = Except.error CodecError.uninitializedCodec :=
  ⟨by decide, (c8_uninitialized_decompress [] []).2 [0] (by decide)⟩

/-! ### Heap operations preserve contents (as multisets) -/

lemma hget_set_ne (l : List HuffmanNode) {i j : Nat} (hne : i ≠ j) (x : HuffmanNode) :
    hget (l.set i x) j = hget l j := by
  unfold hget
  induction l generalizing i j with
  | nil => simp
  | cons a l ih =>
    cases i with
    | zero =>
      cases j with
      | zero => exact absurd rfl hne
      | succ j => rfl
    | succ i =>
      cases j with
      | zero => rfl
      | succ j => exact ih (fun hc => hne (by rw [hc]))

lemma set_hget_self (l : List HuffmanNode) {i : Nat} (hi : i < l.length) :
    l.set i (hget l i) = l := by
  unfold hget
  induction l generalizing i with
  | nil => simp at hi
  | cons a l ih =>
    cases i with
    | zero => rfl
    | succ i =>
      rw [List.set_cons_succ, List.getD_cons_succ, ih (by simpa using hi)]

lemma perm_set (l : List HuffmanNode) {i : Nat} (hi : i < l.length) (x : HuffmanNode) :
    List.Perm (hget l i :: l.set i x) (x :: l) := by
  induction l generalizing i with
  | nil => simp at hi
  | cons a l ih =>
    cases i with
    | zero => exact List.Perm.swap x a l
    | succ i =>
      have hi' : i < l.length := by simpa using hi
      exact (List.Perm.swap a (hget l i) (l.set i x)).trans
        (((ih hi').cons a).trans (List.Perm.swap x a l))

lemma set_set_perm (l : List HuffmanNode) {i j : Nat} (hne : i ≠ j) (hi : i < l.length)
    (hj : j < l.length) (x : HuffmanNode) :
    List.Perm ((l.set i (hget l j)).set j x) (l.set i x) := by
  have hj' : j < (l.set i (hget l j)).length := by simpa using hj
  have h1 : hget (l.set i (hget l j)) j = hget l j := hget_set_ne l hne _
  have c1 := perm_set (l.set i (hget l j)) hj' x
  rw [h1] at c1
  have c2 : List.Perm (hget l i :: l.set i (hget l j)) (hget l j :: l) := perm_set l hi _
  have c3 : List.Perm (hget l i :: l.set i x) (x :: l) := perm_set l hi x
  have big :
      List.Perm (hget l i :: hget l j :: (l.set i (hget l j)).set j x)
        (hget l i :: hget l j :: l.set i x) :=
    ((c1.cons (hget l i)).trans
      ((List.Perm.swap x (hget l i) (l.set i (hget l j))).trans
        ((c2.cons x).trans
          ((List.Perm.swap (hget l j) x l).trans
            ((c3.symm.cons (hget l j)).trans
              (List.Perm.swap (hget l i) (hget l j) (l.set i x))))))).trans
      (List.Perm.refl _)
  exact big.cons_inv.cons_inv

lemma siftdownLoop_perm (fuel : Nat) :
    ∀ (h : List HuffmanNode) (s pos : Nat) (x : HuffmanNode), pos < h.length →
      List.Perm (siftdownLoop fuel h s pos x) (h.set pos x) := by
  induction fuel with
  | zero => intro h s pos x _; exact List.Perm.refl _
  | succ fuel ih =>
    intro h s pos x hpos
    simp only [siftdownLoop]
    split_ifs with h1 h2
    · have hpp : (pos - 1) / 2 < pos := by omega
      have hpp' : (pos - 1) / 2 < (h.set pos (hget h ((pos - 1) / 2))).length := by
        rw [List.length_set]; omega
      exact (ih _ s _ x hpp').trans (set_set_perm h (by omega) hpos (by omega) x)
    · exact List.Perm.refl _
    · exact List.Perm.refl _

lemma siftupLoop_perm (fuel : Nat) :
    ∀ (h : List HuffmanNode) (pos : Nat) (x : HuffmanNode), pos < h.length →
      List.Perm (siftupLoop fuel h pos x).1 (h.set pos x) := by
  induction fuel with
  | zero => intro h pos x _; exact List.Perm.refl _
  | succ fuel ih =>
    intro h pos x hpos
    simp only [siftupLoop]
    split_ifs with h1 h2
    · have hc : 2 * pos + 1 + 1 < h.length := by
        have h2' := h2
        simp only [Bool.and_eq_true, decide_eq_true_eq] at h2'
        exact h2'.1
      have hc' : 2 * pos + 1 + 1 < (h.set pos (hget h (2 * pos + 1 + 1))).length := by
        rw [List.length_set]; omega
      exact (ih _ _ x hc').trans (set_set_perm h (by omega) hpos (by omega) x)
    · have hc' : 2 * pos + 1 < (h.set pos (hget h (2 * pos + 1))).length := by
        rw [List.length_set]; omega
      exact (ih _ _ x hc').trans (set_set_perm h (by omega) hpos (by omega) x)
    · exact List.Perm.refl _

lemma siftdown_perm (h : List HuffmanNode) (s : Nat) {pos : Nat} (hpos : pos < h.length) :
    List.Perm (siftdown h s pos) h := by
  rw [siftdown]
  have := siftdownLoop_perm pos h s pos (hget h pos) hpos
  rw [set_hget_self h hpos] at this
  exact this

lemma siftupLoop_pos_lt (fuel : Nat) :
    ∀ (h : List HuffmanNode) (pos : Nat) (x : HuffmanNode), pos < h.length →
      (siftupLoop fuel h pos x).2 < (siftupLoop fuel h pos x).1.length := by
  induction fuel with
  | zero =>
    intro h pos x hpos
    simp only [siftupLoop, List.length_set]
    exact hpos
  | succ fuel ih =>
    intro h pos x hpos
    simp only [siftupLoop]
    split_ifs with h1 h2
    · have hc : 2 * pos + 1 + 1 < h.length := by
        have h2' := h2
        simp only [Bool.and_eq_true, decide_eq_true_eq] at h2'
        exact h2'.1
      exact ih _ _ _ (by rw [List.length_set]; omega)
    · exact ih _ _ _ (by rw [List.length_set]; omega)
    · simp only [List.length_set]
      exact hpos

lemma siftup_perm (h : List HuffmanNode) {pos : Nat} (hpos : pos < h.length) :
    List.Perm (siftup h pos) h := by
  simp only [siftup]
  have hp1 : List.Perm (siftupLoop h.length h pos (hget h pos)).1 (h.set pos (hget h pos)) :=
    siftupLoop_perm _ _ _ _ hpos
  have hlt : (siftupLoop h.length h pos (hget h pos)).2 <
      (siftupLoop h.length h pos (hget h pos)).1.length := siftupLoop_pos_lt _ _ _ _ hpos
  have hs := siftdown_perm (siftupLoop h.length h pos (hget h pos)).1 pos hlt
  have := hs.trans hp1
  rw [set_hget_self h hpos] at this
  exact this

lemma heappush_perm (h : List HuffmanNode) (x : HuffmanNode) :
    List.Perm (heappush h x) (x :: h) := by
  rw [heappush]
  exact (siftdown_perm (h ++ [x]) 0 (by simp)).trans (List.perm_append_singleton x h)

lemma heappop_perm {h : List HuffmanNode} {x : HuffmanNode} {r : List HuffmanNode}
    (hp : heappop h = some (x, r)) : List.Perm (x :: r) h := by
  unfold heappop at hp
  cases hl : h.getLast? with
  | none => rw [hl] at hp; simp at hp
  | some y =>
    rw [hl] at hp
    obtain ⟨ys, rfl⟩ := List.getLast?_eq_some_iff.mp hl
    rw [List.dropLast_concat] at hp
    cases ys with
    | nil =>
      obtain ⟨rfl, rfl⟩ : y = x ∧ ([] : List HuffmanNode) = r := by simpa using hp
      simp
    | cons z zs =>
      obtain ⟨rfl, rfl⟩ : hget (z :: zs) 0 = x ∧ siftup ((z :: zs).set 0 y) 0 = r := by
        simpa using hp
      have hlen : (0 : Nat) < ((z :: zs).set 0 y).length := by simp
      exact (((siftup_perm _ hlen).cons (hget (z :: zs) 0)).trans
        (perm_set (z :: zs) (by simp) y)).trans (List.perm_append_singleton y (z :: zs)).symm

/-! ### The leaves of the grown trie are the initial nodes -/

/-- The leaf nodes of a trie, in depth-first (zero child first) order. -/
def leafNodes : HuffmanNode → List HuffmanNode
  | .leaf c f => [.leaf c f]
  | .zeroOnly _ _ z => leafNodes z
  | .oneOnly _ _ o => leafNodes o
  | .inner _ _ z o => leafNodes z ++ leafNodes o

/-- All leaves below all nodes of a heap. -/
def heapLeaves (h : List HuffmanNode) : List HuffmanNode :=
  (h.map leafNodes).flatten

lemma heapLeaves_perm {h₁ h₂ : List HuffmanNode} (hp : List.Perm h₁ h₂) :
    List.Perm (heapLeaves h₁) (heapLeaves h₂) :=
  (hp.map leafNodes).flatten

lemma heapLeaves_cons (x : HuffmanNode) (h : List HuffmanNode) :
    heapLeaves (x :: h) = leafNodes x ++ heapLeaves h := rfl

lemma growTrieLoop_leaves (fuel : Nat) : ∀ h : List HuffmanNode,
    List.Perm (heapLeaves (growTrieLoop fuel h)) (heapLeaves h) := by
  induction fuel with
  | zero => intro h; exact List.Perm.refl _
  | succ fuel ih =>
    intro h
    rw [growTrieLoop]
    split
    · cases hp : heappop h with
      | none => exact List.Perm.refl _
      | some p =>
        obtain ⟨z, h1⟩ := p
        dsimp only
        cases hp1 : heappop h1 with
        | none => exact List.Perm.refl _
        | some p1 =>
          obtain ⟨o, h2⟩ := p1
          dsimp only
          have e1 : List.Perm (heapLeaves (z :: h1)) (heapLeaves h) :=
            heapLeaves_perm (heappop_perm hp)
          have e2 : List.Perm (heapLeaves (o :: h2)) (heapLeaves h1) :=
            heapLeaves_perm (heappop_perm hp1)
          have e3 := heapLeaves_perm (heappush_perm h2
            (HuffmanNode.make (if o.char < z.char then o.char else z.char)
              (z.freq + o.freq) (some z) (some o)))
          have e4 : heapLeaves
              ((HuffmanNode.make (if o.char < z.char then o.char else z.char)
                (z.freq + o.freq) (some z) (some o)) :: h2) =
              (leafNodes z ++ leafNodes o) ++ heapLeaves h2 := by
            rw [heapLeaves_cons]
            rfl
          refine (ih _).trans (e3.trans ?_)
          rw [e4, List.append_assoc]
          exact ((e2.append_left (leafNodes z)).trans e1)
    · exact List.Perm.refl _

lemma growTrieLoop_length_eq_one (fuel : Nat) : ∀ h : List HuffmanNode,
    1 ≤ h.length → h.length ≤ fuel + 1 → (growTrieLoop fuel h).length = 1 := by
  induction fuel with
  | zero =>
    intro h h1 h2
    rw [growTrieLoop]
    omega
  | succ fuel ih =>
    intro h h1 h2
    rw [growTrieLoop]
    split
    · rename_i hlen
      obtain ⟨z, h1', hp⟩ := heappop_isSome (h := h) (by intro hc; rw [hc] at hlen; simp at hlen)
      rw [hp]
      dsimp only
      have hl1 : h1'.length + 1 = h.length := heappop_length hp
      obtain ⟨o, h2', hp1⟩ := heappop_isSome (h := h1')
        (by intro hc; rw [hc] at hl1; simp at hl1; omega)
      rw [hp1]
      dsimp only
      have hl2 : h2'.length + 1 = h1'.length := heappop_length hp1
      apply ih
      · rw [heappush_length]; omega
      · rw [heappush_length]; omega
    · rename_i hlen
      simp at hlen
      omega

lemma grow_trie_leafNodes {h : List HuffmanNode} {root : HuffmanNode} (h1 : 1 ≤ h.length)
    (hg : grow_trie h = some root) : List.Perm (leafNodes root) (heapLeaves h) := by
  rw [grow_trie] at hg
  have hlen : (growTrieLoop h.length h).length = 1 :=
    growTrieLoop_length_eq_one h.length h h1 (by omega)
  obtain ⟨y, hy⟩ := List.length_eq_one.mp hlen
  rw [hy] at hg
  have : heappop [y] = some (y, []) := rfl
  rw [this] at hg
  obtain rfl : y = root := by simpa using hg
  have := growTrieLoop_leaves h.length h
  rw [hy] at this
  simpa [heapLeaves] using this

lemma foldl_push_perm (g : Nat → HuffmanNode) :
    ∀ (l : List Nat) (s : List HuffmanNode),
      List.Perm (l.foldl (fun h item => heappush h (g item)) s) (l.map g ++ s) := by
  intro l
  induction l with
  | nil => intro s; exact List.Perm.refl _
  | cons c l ih =>
    intro s
    rw [List.foldl_cons, List.map_cons]
    have h1 := ih (heappush s (g c))
    have h2 : List.Perm (l.map g ++ heappush s (g c)) (l.map g ++ (g c :: s)) :=
      (heappush_perm s (g c)).append_left (l.map g)
    exact (h1.trans h2).trans List.perm_middle

lemma initial_heap_perm (corpus chars : List Nat) :
    List.Perm (initial_heap corpus chars)
      (HuffmanNode.leaf ETB_CHAR 1 ::
        chars.map (fun item => HuffmanNode.leaf item (corpus.count item))) := by
  rw [initial_heap]
  have h0 : heappush [] (HuffmanNode.make ETB_CHAR 1 none none) =
      [HuffmanNode.leaf ETB_CHAR 1] := rfl
  rw [h0]
  have := foldl_push_perm (fun item => HuffmanNode.make item (corpus.count item) none none)
    chars [HuffmanNode.leaf ETB_CHAR 1]
  exact this.trans (List.perm_append_singleton _ _)

lemma heapLeaves_of_leaves (l : List HuffmanNode) (hl : ∀ x ∈ l, leafNodes x = [x]) :
    heapLeaves l = l := by
  induction l with
  | nil => rfl
  | cons a l ih =>
    rw [heapLeaves_cons, hl a (List.mem_cons_self a l), ih (fun x hx => hl x (List.mem_cons_of_mem a hx))]
    rfl

/-! ### Dictionary semantics: keys are unique, the last write wins -/

/-- The keys of an association-list dictionary, in insertion order. -/
def dict_keys (d : EncMap) : List Nat := d.map Prod.fst

lemma dict_lookup_insert (d : EncMap) (k' k : Nat) (v' : List Bool) :
    dict_lookup (dict_insert d k' v') k = if k' = k then some v' else dict_lookup d k := by
  induction d with
  | nil => simp [dict_insert, dict_lookup]
  | cons kv rest ih =>
    obtain ⟨k₀, v₀⟩ := kv
    rw [dict_insert]
    by_cases h0 : k₀ = k'
    · rw [if_pos h0, dict_lookup, dict_lookup]
      by_cases hk : k₀ = k
      · rw [if_pos hk, if_pos (h0 ▸ hk)]
      · rw [if_neg hk, if_neg (h0 ▸ hk), if_neg hk]
    · rw [if_neg h0, dict_lookup, dict_lookup, ih]
      by_cases hk : k₀ = k
      · rw [if_pos hk, if_neg (fun hc : k' = k => h0 (hk.trans hc.symm)), if_pos hk]
      · rw [if_neg hk]
        by_cases hk2 : k' = k
        · rw [if_pos hk2, if_pos hk2]
        · rw [if_neg hk2, if_neg hk2, if_neg hk]

/-- The value of the last entry for key `k` in an entry list. -/
def last_binding (e : EncMap) (k : Nat) : Option (List Bool) :=
  ((e.filter (fun kv => kv.1 == k)).getLast?).map Prod.snd

lemma last_binding_cons (kv : Nat × List Bool) (e : EncMap) (k : Nat) :
    last_binding (kv :: e) k =
      if kv.1 = k then (last_binding e k).elim (some kv.2) some else last_binding e k := by
  rw [last_binding, last_binding, List.filter_cons]
  by_cases h : kv.1 = k
  · rw [if_pos (by simpa using h), if_pos h]
    cases hf : e.filter (fun kv => kv.1 == k) with
    | nil => rfl
    | cons x xs =>
      rw [List.getLast?_cons_cons]
      cases hg : (x :: xs).getLast? with
      | none => simp at hg
      | some y => rfl
  · rw [if_neg (by simpa using h), if_neg h]

lemma dict_lookup_update (d e : EncMap) (k : Nat) :
    dict_lookup (dict_update d e) k = (last_binding e k).elim (dict_lookup d k) some := by
  induction e generalizing d with
  | nil => rfl
  | cons kv e ih =>
    rw [show dict_update d (kv :: e) = dict_update (dict_insert d kv.1 kv.2) e from rfl,
      ih, last_binding_cons, dict_lookup_insert]
    by_cases h : kv.1 = k
    · rw [if_pos h, if_pos h]
      cases last_binding e k with
      | none => rfl
      | some v => rfl
    · rw [if_neg h, if_neg h]

lemma dict_keys_insert (d : EncMap) (k : Nat) (v : List Bool) :
    dict_keys (dict_insert d k v) = if k ∈ dict_keys d then dict_keys d else dict_keys d ++ [k] := by
  induction d with
  | nil => rfl
  | cons kv rest ih =>
    obtain ⟨k₀, v₀⟩ := kv
    by_cases h0 : k₀ = k
    · subst h0
      rw [dict_insert, if_pos rfl,
        if_pos (show k₀ ∈ dict_keys ((k₀, v₀) :: rest) from List.mem_cons_self _ _)]
      rfl
    · rw [dict_insert, if_neg h0]
      have hmem : k ∈ dict_keys ((k₀, v₀) :: rest) ↔ k ∈ dict_keys rest := by
        constructor
        · intro hc
          rcases List.mem_cons.mp hc with hc | hc
          · exact absurd hc.symm h0
          · exact hc
        · exact fun hc => List.mem_cons_of_mem _ hc
      by_cases hk : k ∈ dict_keys rest
      · rw [if_pos (hmem.mpr hk)]
        show k₀ :: dict_keys (dict_insert rest k v) = k₀ :: dict_keys rest
        rw [ih, if_pos hk]
      · rw [if_neg (fun hc => hk (hmem.mp hc))]
        show k₀ :: dict_keys (dict_insert rest k v) = (k₀ :: dict_keys rest) ++ [k]
        rw [ih, if_neg hk]
        rfl

lemma dict_insert_nodup {d : EncMap} (hd : (dict_keys d).Nodup) (k : Nat) (v : List Bool) :
    (dict_keys (dict_insert d k v)).Nodup := by
  rw [dict_keys_insert]
  by_cases h : k ∈ dict_keys d
  · rw [if_pos h]; exact hd
  · rw [if_neg h]
    rw [List.nodup_append]
    exact ⟨hd, List.nodup_singleton k, by simpa using h⟩

lemma dict_update_nodup {d : EncMap} (hd : (dict_keys d).Nodup) (e : EncMap) :
    (dict_keys (dict_update d e)).Nodup := by
  induction e generalizing d with
  | nil => exact hd
  | cons kv e ih => exact ih (dict_insert_nodup hd kv.1 kv.2)

lemma create_encoding_map_node_nodup (n : HuffmanNode) (p : List Bool) :
    (dict_keys (create_encoding_map_node n p)).Nodup := by
  cases n with
  | leaf c f => exact List.nodup_singleton c
  | zeroOnly c f z =>
    rw [create_encoding_map_node]
    exact dict_update_nodup (dict_update_nodup (by simp [dict_keys]) _) _
  | oneOnly c f o =>
    rw [create_encoding_map_node]
    exact dict_update_nodup (dict_update_nodup (by simp [dict_keys]) _) _
  | inner c f z o =>
    rw [create_encoding_map_node]
    exact dict_update_nodup (dict_update_nodup (by simp [dict_keys]) _) _

lemma filter_key_nil_of_not_mem {e : EncMap} {k : Nat} (h : k ∉ dict_keys e) :
    e.filter (fun kv => kv.1 == k) = [] := by
  induction e with
  | nil => rfl
  | cons kv rest ih =>
    have h1 : ¬ (kv.1 == k) = true := by
      simp only [beq_iff_eq]
      intro hc
      exact h (by rw [← hc]; exact List.mem_cons_self _ _)
    rw [List.filter_cons, if_neg h1]
    exact ih (fun hc => h (List.mem_cons_of_mem _ hc))

lemma dict_lookup_eq_last_binding_of_nodup {d : EncMap} (hd : (dict_keys d).Nodup) (k : Nat) :
    dict_lookup d k = last_binding d k := by
  induction d with
  | nil => rfl
  | cons kv rest ih =>
    obtain ⟨k₀, v₀⟩ := kv
    have hd' : (dict_keys rest).Nodup := (List.nodup_cons.mp hd).2
    have h0 : k₀ ∉ dict_keys rest := (List.nodup_cons.mp hd).1
    rw [dict_lookup, last_binding_cons]
    by_cases hk : k₀ = k
    · rw [if_pos hk, if_pos hk]
      subst hk
      rw [show last_binding rest k₀ =
        ((rest.filter (fun kv => kv.1 == k₀)).getLast?).map Prod.snd from rfl,
        filter_key_nil_of_not_mem h0]
      rfl
    · rw [if_neg hk, if_neg hk, ih hd']

/-- The stored encoding: looking up `k` in the map built for a subtree at
path `p` finds the path of the last leaf of character `k` in depth-first
(zero child first) order, relative paths extended by `p`. -/
lemma create_encoding_map_node_lookup (n : HuffmanNode) (p : List Bool) (k : Nat) :
    dict_lookup (create_encoding_map_node n p) k =
      ((leaf_path_entries n).filter (fun kv => kv.1 == k)).getLast?.map
        (fun kv => p ++ kv.2) := by
  induction n generalizing p with
  | leaf c f =>
    rw [create_encoding_map_node, dict_insert, leaf_path_entries, dict_lookup, List.filter_cons]
    by_cases h : c = k
    · rw [if_pos h, if_pos (by simpa using h)]
      simp
    · rw [if_neg h, if_neg (by simpa using h)]
      rfl
  | zeroOnly c f z ihz =>
    rw [create_encoding_map_node, leaf_path_entries]
    rw [dict_lookup_update, dict_lookup_update,
      show last_binding ([] : EncMap) k = none from rfl]
    have hlb : last_binding (create_encoding_map_node z (p ++ [false])) k =
        dict_lookup (create_encoding_map_node z (p ++ [false])) k :=
      (dict_lookup_eq_last_binding_of_nodup (create_encoding_map_node_nodup _ _) k).symm
    rw [Option.elim_none, hlb, ihz]
    rw [List.filter_map, List.getLast?_map]
    have hpred : ((fun kv : Nat × List Bool => kv.1 == k) ∘
        (fun kv : Nat × List Bool => (kv.1, false :: kv.2))) =
        (fun kv : Nat × List Bool => kv.1 == k) := rfl
    rw [hpred]
    cases hg : (List.filter (fun kv => kv.1 == k) (leaf_path_entries z)).getLast? with
    | none => rfl
    | some kv => simp
  | oneOnly c f o iho =>
    rw [create_encoding_map_node, leaf_path_entries]
    rw [dict_lookup_update]
    have hlb : last_binding (create_encoding_map_node o (p ++ [true])) k =
        dict_lookup (create_encoding_map_node o (p ++ [true])) k :=
      (dict_lookup_eq_last_binding_of_nodup (create_encoding_map_node_nodup _ _) k).symm
    rw [hlb, iho]
    rw [List.filter_map, List.getLast?_map]
    have hpred : ((fun kv : Nat × List Bool => kv.1 == k) ∘
        (fun kv : Nat × List Bool => (kv.1, true :: kv.2))) =
        (fun kv : Nat × List Bool => kv.1 == k) := rfl
    rw [hpred]
    cases hg : (List.filter (fun kv => kv.1 == k) (leaf_path_entries o)).getLast? with
    | none => rfl
    | some kv => simp
  | inner c f z o ihz iho =>
    rw [create_encoding_map_node, leaf_path_entries]
    rw [dict_lookup_update, dict_lookup_update]
    have hlbz : last_binding (create_encoding_map_node z (p ++ [false])) k =
        dict_lookup (create_encoding_map_node z (p ++ [false])) k :=
      (dict_lookup_eq_last_binding_of_nodup (create_encoding_map_node_nodup _ _) k).symm
    have hlbo : last_binding (create_encoding_map_node o (p ++ [true])) k =
        dict_lookup (create_encoding_map_node o (p ++ [true])) k :=
      (dict_lookup_eq_last_binding_of_nodup (create_encoding_map_node_nodup _ _) k).symm
    rw [hlbz, hlbo, ihz, iho]
    rw [List.filter_append, List.filter_map, List.filter_map, List.getLast?_append,
      List.getLast?_map, List.getLast?_map]
    have hpredz : ((fun kv : Nat × List Bool => kv.1 == k) ∘
        (fun kv : Nat × List Bool => (kv.1, false :: kv.2))) =
        (fun kv : Nat × List Bool => kv.1 == k) := rfl
    have hpredo : ((fun kv : Nat × List Bool => kv.1 == k) ∘
        (fun kv : Nat × List Bool => (kv.1, true :: kv.2))) =
        (fun kv : Nat × List Bool => kv.1 == k) := rfl
    rw [hpredz, hpredo]
    cases hgo : (List.filter (fun kv => kv.1 == k) (leaf_path_entries o)).getLast? with
    | none =>
      cases hgz : (List.filter (fun kv => kv.1 == k) (leaf_path_entries z)).getLast? with
      | none => rfl
      | some kv => simp
    | some kv => simp

/-! ### C10: a corpus containing the sentinel yields two sentinel leaves -/

lemma lpe_keys (n : HuffmanNode) :
    (leaf_path_entries n).map Prod.fst = (leafNodes n).map HuffmanNode.char := by
  induction n with
  | leaf c f => rfl
  | zeroOnly c f z ihz =>
    rw [leaf_path_entries, leafNodes, List.map_map,
      show (Prod.fst ∘ fun kv : Nat × List Bool => (kv.1, false :: kv.2)) = Prod.fst from rfl]
    exact ihz
  | oneOnly c f o iho =>
    rw [leaf_path_entries, leafNodes, List.map_map,
      show (Prod.fst ∘ fun kv : Nat × List Bool => (kv.1, true :: kv.2)) = Prod.fst from rfl]
    exact iho
  | inner c f z o ihz iho =>
    rw [leaf_path_entries, leafNodes, List.map_append, List.map_append, List.map_map,
      List.map_map,
      show (Prod.fst ∘ fun kv : Nat × List Bool => (kv.1, false :: kv.2)) = Prod.fst from rfl,
      show (Prod.fst ∘ fun kv : Nat × List Bool => (kv.1, true :: kv.2)) = Prod.fst from rfl,
      ihz, iho]

lemma dict_lookup_key_mem {d : EncMap} {k : Nat} {v : List Bool}
    (h : dict_lookup d k = some v) : k ∈ dict_keys d := by
  have := dict_lookup_mem h
  exact List.mem_map.mpr ⟨(k, v), this, rfl⟩

/-- C10: when the sentinel character occurs in a (necessarily non-empty)
corpus, the built trie contains exactly two sentinel-labeled leaves — one
of frequency 1 (pushed unconditionally) and one carrying the sentinel's
occurrence count — while the encoding map holds exactly one entry for the
sentinel, whose codeword is the path of the last sentinel leaf recorded
during the depth-first map construction. -/
theorem c10_sentinel_in_corpus (corpus chars : List Nat) (hnd : chars.Nodup)
    (hmem : ∀ c, c ∈ chars ↔ c ∈ corpus) (hetb : ETB_CHAR ∈ corpus) :
    ∃ root, (construct corpus chars).trie_root = some root ∧
      List.Perm ((leafNodes root).filter (fun n => n.char == ETB_CHAR))
        [HuffmanNode.leaf ETB_CHAR 1, HuffmanNode.leaf ETB_CHAR (corpus.count ETB_CHAR)] ∧
      (dict_keys (get_encoding_map (construct corpus chars))).count ETB_CHAR = 1 ∧
      dict_lookup (get_encoding_map (construct corpus chars)) ETB_CHAR =
        (((leaf_path_entries root).filter (fun kv => kv.1 == ETB_CHAR)).getLast?).map
          Prod.snd := by
  have hc : 0 < corpus.length := List.length_pos.mpr (List.ne_nil_of_mem hetb)
  obtain ⟨root, hroot⟩ := grow_trie_initial_isSome corpus chars
  have htrie : (construct corpus chars).trie_root = some root := by
    rw [construct, if_pos hc]
    exact hroot
  have hmap : get_encoding_map (construct corpus chars) = create_encoding_map_node root [] := by
    rw [get_encoding_map, construct, if_pos hc]
    dsimp only
    rw [hroot]
    rfl
  -- the leaves of the trie are the initial nodes
  have hleaf : List.Perm (leafNodes root) (heapLeaves (initial_heap corpus chars)) :=
    grow_trie_leafNodes (by rw [initial_heap_length]; omega) hroot
  have hinit : heapLeaves (HuffmanNode.leaf ETB_CHAR 1 ::
      chars.map (fun item => HuffmanNode.leaf item (corpus.count item))) =
      HuffmanNode.leaf ETB_CHAR 1 ::
        chars.map (fun item => HuffmanNode.leaf item (corpus.count item)) := by
    apply heapLeaves_of_leaves
    intro x hx
    rcases List.mem_cons.mp hx with rfl | hx
    · rfl
    · obtain ⟨item, _, rfl⟩ := List.mem_map.mp hx
      rfl
  have hleaves : List.Perm (leafNodes root)
      (HuffmanNode.leaf ETB_CHAR 1 ::
        chars.map (fun item => HuffmanNode.leaf item (corpus.count item))) := by
    refine hleaf.trans ?_
    have := heapLeaves_perm (initial_heap_perm corpus chars)
    rw [hinit] at this
    exact this
  -- the filtered sentinel leaves
  have hchars23 : chars.filter (fun a => a == ETB_CHAR) = [ETB_CHAR] := by
    rw [List.filter_beq, List.count_eq_one_of_mem hnd ((hmem ETB_CHAR).mpr hetb)]
    rfl
  have hfilter : List.Perm ((leafNodes root).filter (fun n => n.char == ETB_CHAR))
      [HuffmanNode.leaf ETB_CHAR 1, HuffmanNode.leaf ETB_CHAR (corpus.count ETB_CHAR)] := by
    refine (hleaves.filter _).trans ?_
    rw [List.filter_cons,
      if_pos (by decide : ((HuffmanNode.leaf ETB_CHAR 1).char == ETB_CHAR) = true),
      List.filter_map,
      show ((fun n : HuffmanNode => n.char == ETB_CHAR) ∘
        (fun item => HuffmanNode.leaf item (corpus.count item))) =
        (fun a => a == ETB_CHAR) from rfl,
      hchars23]
    exact List.Perm.refl _
  refine ⟨root, htrie, hfilter, ?_, ?_⟩
  · -- exactly one sentinel entry in the map
    have h1 : HuffmanNode.leaf ETB_CHAR 1 ∈ (leafNodes root).filter
        (fun n => n.char == ETB_CHAR) :=
      hfilter.symm.subset (by simp)
    have h2 : HuffmanNode.leaf ETB_CHAR 1 ∈ leafNodes root := (List.mem_filter.mp h1).1
    have h3 : ETB_CHAR ∈ (leafNodes root).map HuffmanNode.char :=
      List.mem_map.mpr ⟨_, h2, rfl⟩
    rw [← lpe_keys] at h3
    obtain ⟨kv, hkv, hk⟩ := List.mem_map.mp h3
    have h4 : kv ∈ (leaf_path_entries root).filter (fun kv => kv.1 == ETB_CHAR) :=
      List.mem_filter.mpr ⟨hkv, by simp [hk]⟩
    have h5 : (leaf_path_entries root).filter (fun kv => kv.1 == ETB_CHAR) ≠ [] :=
      List.ne_nil_of_mem h4
    obtain ⟨last, hlast⟩ := Option.isSome_iff_exists.mp (List.getLast?_isSome.mpr h5)
    have h6 : dict_lookup (get_encoding_map (construct corpus chars)) ETB_CHAR =
        some ([] ++ last.2) := by
      rw [hmap, create_encoding_map_node_lookup, hlast]
      rfl
    have h7 : ETB_CHAR ∈ dict_keys (get_encoding_map (construct corpus chars)) :=
      dict_lookup_key_mem h6
    rw [hmap] at h7 ⊢
    exact List.count_eq_one_of_mem (create_encoding_map_node_nodup root []) h7
  · -- the last recorded sentinel leaf wins
    rw [hmap, create_encoding_map_node_lookup]
    cases hg : ((leaf_path_entries root).filter (fun kv => kv.1 == ETB_CHAR)).getLast? with
    | none => rfl
    | some kv => simp

/-- Witness for C10 at the concrete corpus `"\x17a"`. -/
theorem c10_sentinel_in_corpus_witness :
    ([23, 97] : List Nat).Nodup ∧ ETB_CHAR ∈ ([23, 97] : List Nat) ∧
    (∃ root, (construct [23, 97] [23, 97]).trie_root = some root ∧
      List.Perm ((leafNodes root).filter (fun n => n.char == ETB_CHAR))
        [HuffmanNode.leaf ETB_CHAR 1,
          HuffmanNode.leaf ETB_CHAR (([23, 97] : List Nat).count ETB_CHAR)] ∧
      (dict_keys (get_encoding_map (construct [23, 97] [23, 97]))).count ETB_CHAR = 1 ∧
      dict_lookup (get_encoding_map (construct [23, 97] [23, 97])) ETB_CHAR =
        (((leaf_path_entries root).filter (fun kv => kv.1 == ETB_CHAR)).getLast?).map
          Prod.snd) :=
  ⟨by decide, by decide,
    c10_sentinel_in_corpus [23, 97] [23, 97] (by decide) (fun c => Iff.rfl) (by decide)⟩

/-! ### The heap invariant and `__lt__` as an order -/

/-- `__lt__` as a relation: frequency, then character. -/
def kLt (a b : HuffmanNode) : Prop :=
  a.freq < b.freq ∨ (a.freq = b.freq ∧ a.char < b.char)

/-- The reflexive closure of `kLt` on the `(freq, char)` key. -/
def kLe (a b : HuffmanNode) : Prop :=
  a.freq < b.freq ∨ (a.freq = b.freq ∧ a.char ≤ b.char)

lemma lt_iff_kLt {a b : HuffmanNode} : a.lt b = true ↔ kLt a b := by
  rw [HuffmanNode.lt, kLt]
  split_ifs with h
  · simp [h]
  · constructor
    · intro hlt
      exact Or.inl (by simpa using hlt)
    · intro hlt
      rcases hlt with hlt | hlt
      · simpa using hlt
      · exact absurd hlt.1 h

lemma kLe_of_not_kLt {a b : HuffmanNode} (h : ¬ kLt a b) : kLe b a := by
  rw [kLt] at h
  rw [kLe]
  omega

lemma kLe_of_kLt {a b : HuffmanNode} (h : kLt a b) : kLe a b := by
  rw [kLt] at h
  rw [kLe]
  omega

lemma kLe_refl (a : HuffmanNode) : kLe a a := by
  rw [kLe]
  omega

lemma kLe_trans {a b c : HuffmanNode} (h₁ : kLe a b) (h₂ : kLe b c) : kLe a c := by
  rw [kLe] at h₁ h₂ ⊢
  omega

lemma kLe_antisymm_key {a b : HuffmanNode} (h₁ : kLe a b) (h₂ : kLe b a) :
    a.freq = b.freq ∧ a.char = b.char := by
  rw [kLe] at h₁ h₂
  omega

/-- Parent position in the array representation of a binary heap. -/
def parentIdx (j : Nat) : Nat := (j - 1) / 2

/-- The binary-heap invariant of `heapq`: every non-root entry is at least
its parent in the `(freq, char)` key order. -/
def IsHeap (h : List HuffmanNode) : Prop :=
  ∀ j, 0 < j → j < h.length → kLe (hget h (parentIdx j)) (hget h j)

lemma isHeap_nil : IsHeap [] := by
  intro j _ hj
  simp at hj

lemma hget_set_eq (l : List HuffmanNode) {i : Nat} (hi : i < l.length) (x : HuffmanNode) :
    hget (l.set i x) i = x := by
  unfold hget
  induction l generalizing i with
  | nil => simp at hi
  | cons a l ih =>
    cases i with
    | zero => rfl
    | succ i => exact ih (by simpa using hi)

lemma hget_append_lt (l l' : List HuffmanNode) {i : Nat} (hi : i < l.length) :
    hget (l ++ l') i = hget l i := by
  unfold hget
  rw [List.getD_eq_getElem?_getD, List.getD_eq_getElem?_getD,
    List.getElem?_append_left hi]

lemma hget_mem {l : List HuffmanNode} {i : Nat} (hi : i < l.length) : hget l i ∈ l := by
  unfold hget
  rw [List.getD_eq_getElem?_getD, List.getElem?_eq_getElem hi]
  exact List.getElem_mem _

lemma mem_exists_hget {l : List HuffmanNode} {y : HuffmanNode} (hy : y ∈ l) :
    ∃ i, i < l.length ∧ hget l i = y := by
  obtain ⟨i, hi, he⟩ := List.mem_iff_getElem.mp hy
  refine ⟨i, hi, ?_⟩
  unfold hget
  rw [List.getD_eq_getElem?_getD, List.getElem?_eq_getElem hi]
  exact he

lemma isHeap_root_min {h : List HuffmanNode} (hh : IsHeap h) :
    ∀ j, j < h.length → kLe (hget h 0) (hget h j) := by
  intro j
  induction j using Nat.strong_induction_on with
  | _ j ih =>
    intro hj
    cases Nat.eq_zero_or_pos j with
    | inl h0 => subst h0; exact kLe_refl _
    | inr h0 =>
      have hp : parentIdx j < j := by
        rw [parentIdx]
        omega
      exact kLe_trans (ih (parentIdx j) hp (by omega)) (hh j h0 hj)

lemma isHeap_min_mem {h : List HuffmanNode} (hh : IsHeap h) {y : HuffmanNode} (hy : y ∈ h) :
    kLe (hget h 0) y := by
  obtain ⟨i, hi, rfl⟩ := mem_exists_hget hy
  exact isHeap_root_min hh i hi

/-! ### `_siftdown` establishes the heap invariant (push path) -/

/-- Heap invariant away from the hole `pos` (stale-value edges included). -/
def SDI (h : List HuffmanNode) (pos : Nat) : Prop :=
  ∀ j, 0 < j → j < h.length → j ≠ pos → kLe (hget h (parentIdx j)) (hget h j)

/-- Children of the hole are at least the hole's parent. -/
def SDG (h : List HuffmanNode) (pos : Nat) : Prop :=
  0 < pos → ∀ j, 0 < j → j < h.length → parentIdx j = pos →
    kLe (hget h (parentIdx pos)) (hget h j)

/-- Children of the hole are at least the pending item. -/
def SDN (h : List HuffmanNode) (pos : Nat) (x : HuffmanNode) : Prop :=
  ∀ j, 0 < j → j < h.length → parentIdx j = pos → kLe x (hget h j)

lemma final_set_isHeap {h : List HuffmanNode} {pos : Nat} {x : HuffmanNode}
    (hpos : pos < h.length) (hI : SDI h pos) (hN : SDN h pos x)
    (hedge : 0 < pos → kLe (hget h (parentIdx pos)) x) : IsHeap (h.set pos x) := by
  intro j hj0 hjlen
  rw [List.length_set] at hjlen
  by_cases hj : j = pos
  · rw [hj] at hj0 ⊢
    have hpj : pos ≠ parentIdx pos := by rw [parentIdx]; omega
    rw [hget_set_ne h hpj x, hget_set_eq h hpos x]
    exact hedge hj0
  · by_cases hpj : parentIdx j = pos
    · rw [hpj, hget_set_eq h hpos x, hget_set_ne h (fun hc => hj hc.symm) x]
      exact hN j hj0 hjlen hpj
    · rw [hget_set_ne h (fun hc => hpj hc.symm) x, hget_set_ne h (fun hc => hj hc.symm) x]
      exact hI j hj0 hjlen hj

lemma siftdownLoop_isHeap : ∀ (fuel : Nat) (h : List HuffmanNode) (pos : Nat) (x : HuffmanNode),
    pos ≤ fuel → pos < h.length → SDI h pos → SDG h pos → SDN h pos x →
    IsHeap (siftdownLoop fuel h 0 pos x) := by
  intro fuel
  induction fuel with
  | zero =>
    intro h pos x hfuel hpos hI hG hN
    obtain rfl : pos = 0 := by omega
    exact final_set_isHeap hpos hI hN (fun h0 => absurd h0 (by omega))
  | succ fuel ih =>
    intro h pos x hfuel hpos hI hG hN
    simp only [siftdownLoop]
    split_ifs with h1 h2
    · have h2' : kLt x (hget h ((pos - 1) / 2)) := lt_iff_kLt.mp h2
      have hpplt : (pos - 1) / 2 < pos := by omega
      have hpplen : (pos - 1) / 2 < h.length := by omega
      have hvpos : hget (h.set pos (hget h ((pos - 1) / 2))) pos = hget h ((pos - 1) / 2) :=
        hget_set_eq h hpos _
      have hvother : ∀ i, i ≠ pos → hget (h.set pos (hget h ((pos - 1) / 2))) i = hget h i :=
        fun i hi => hget_set_ne h (fun hc => hi hc.symm) _
      apply ih
      · omega
      · rw [List.length_set]; omega
      · intro j hj0 hjlen hjne
        rw [List.length_set] at hjlen
        by_cases hj : j = pos
        · rw [hj] at hj0 ⊢
          have hne_pp : parentIdx pos ≠ pos := by rw [parentIdx]; omega
          rw [hvother _ hne_pp, hvpos]
          exact kLe_refl _
        · by_cases hpj : parentIdx j = pos
          · rw [hpj, hvpos, hvother j hj]
            exact hG h1 j hj0 hjlen hpj
          · rw [hvother _ hpj, hvother j hj]
            exact hI j hj0 hjlen hj
      · intro hpp0 j hj0 hjlen hpj
        rw [List.length_set] at hjlen
        have hne_ppp : parentIdx ((pos - 1) / 2) ≠ pos := by rw [parentIdx]; omega
        rw [hvother _ hne_ppp]
        by_cases hj : j = pos
        · rw [hj]
          rw [hvpos]
          exact hI ((pos - 1) / 2) hpp0 hpplen (by omega)
        · rw [hvother j hj]
          have e1 := hI ((pos - 1) / 2) hpp0 hpplen (by omega)
          have e2 := hI j hj0 hjlen hj
          rw [hpj] at e2
          exact kLe_trans e1 e2
      · intro j hj0 hjlen hpj
        rw [List.length_set] at hjlen
        by_cases hj : j = pos
        · rw [hj]
          rw [hvpos]
          exact kLe_of_kLt h2'
        · rw [hvother j hj]
          have e2 := hI j hj0 hjlen hj
          rw [hpj] at e2
          exact kLe_trans (kLe_of_kLt h2') e2
    · apply final_set_isHeap hpos hI hN
      intro _
      exact kLe_of_not_kLt (fun hc => h2 (lt_iff_kLt.mpr hc))
    · obtain rfl : pos = 0 := by omega
      exact final_set_isHeap hpos hI hN (fun h0 => absurd h0 (by omega))

lemma heappush_isHeap {h : List HuffmanNode} (hh : IsHeap h) (x : HuffmanNode) :
    IsHeap (heappush h x) := by
  rw [heappush, siftdown]
  have hex : hget (h ++ [x]) h.length = x := by
    unfold hget
    rw [List.getD_eq_getElem?_getD]
    simp
  rw [hex]
  apply siftdownLoop_isHeap
  · exact Nat.le_refl _
  · simp
  · intro j hj0 hjlen hjne
    rw [List.length_append] at hjlen
    have hjlen' : j < h.length := by simp at hjlen; omega
    have hplen : parentIdx j < h.length := by rw [parentIdx]; omega
    rw [hget_append_lt h [x] hjlen', hget_append_lt h [x] hplen]
    exact hh j hj0 hjlen'
  · intro hpos0 j hj0 hjlen hpj
    rw [List.length_append] at hjlen
    rw [parentIdx] at hpj
    simp at hjlen
    omega
  · intro j hj0 hjlen hpj
    rw [List.length_append] at hjlen
    rw [parentIdx] at hpj
    simp at hjlen
    omega

/-! ### `_siftup` restores the heap invariant (pop path) -/

/-- Heap invariant except on the edges out of the hole `pos`. -/
def DD1 (h : List HuffmanNode) (pos : Nat) : Prop :=
  ∀ j, 0 < j → j < h.length → parentIdx j ≠ pos → kLe (hget h (parentIdx j)) (hget h j)

/-- Children of the hole are at least the hole's parent. -/
def DD2 (h : List HuffmanNode) (pos : Nat) : Prop :=
  0 < pos → ∀ j, 0 < j → j < h.length → parentIdx j = pos →
    kLe (hget h (parentIdx pos)) (hget h j)

lemma siftupLoop_step_invariants {h : List HuffmanNode} {pos c : Nat}
    (hpos : pos < h.length) (hc : c < h.length) (hplt : pos < c) (hpc : parentIdx c = pos)
    (hmin : ∀ j, 0 < j → j < h.length → parentIdx j = pos → kLe (hget h c) (hget h j))
    (hD1 : DD1 h pos) (hD2 : DD2 h pos) :
    DD1 (h.set pos (hget h c)) c ∧ DD2 (h.set pos (hget h c)) c := by
  have hvpos : hget (h.set pos (hget h c)) pos = hget h c := hget_set_eq h hpos _
  have hvother : ∀ i, i ≠ pos → hget (h.set pos (hget h c)) i = hget h i :=
    fun i hi => hget_set_ne h (fun hcc => hi hcc.symm) _
  constructor
  · intro j hj0 hjlen hpj
    rw [List.length_set] at hjlen
    by_cases hj : j = pos
    · rw [hj] at hj0 ⊢
      have hne_pp : parentIdx pos ≠ pos := by rw [parentIdx]; omega
      rw [hvother _ hne_pp, hvpos]
      exact hD2 hj0 c (by omega) hc hpc
    · by_cases hpjp : parentIdx j = pos
      · rw [hpjp, hvpos, hvother j hj]
        exact hmin j hj0 hjlen hpjp
      · rw [hvother _ hpjp, hvother j hj]
        exact hD1 j hj0 hjlen hpjp
  · intro hc0 j hj0 hjlen hpj
    rw [List.length_set] at hjlen
    rw [hpc, hvpos]
    have hjc : c < j := by
      rw [parentIdx] at hpj
      omega
    rw [hvother j (by omega)]
    have e := hD1 j hj0 hjlen (by rw [hpj]; omega)
    rw [hpj] at e
    exact e

lemma siftupLoop_heap : ∀ (fuel : Nat) (h : List HuffmanNode) (pos : Nat) (x : HuffmanNode),
    pos < h.length → h.length ≤ fuel + pos → DD1 h pos → DD2 h pos →
    IsHeap (siftdown (siftupLoop fuel h pos x).1 0 (siftupLoop fuel h pos x).2) := by
  intro fuel
  induction fuel with
  | zero =>
    intro h pos x hpos hfuel _ _
    omega
  | succ fuel ih =>
    intro h pos x hpos hfuel hD1 hD2
    simp only [siftupLoop]
    split_ifs with h1 h2
    · -- move the right child up
      have hrlen : 2 * pos + 1 + 1 < h.length := by
        have h2' := h2
        simp only [Bool.and_eq_true, decide_eq_true_eq] at h2'
        exact h2'.1
      have hle : kLe (hget h (2 * pos + 1 + 1)) (hget h (2 * pos + 1)) := by
        have h2' := h2
        simp only [Bool.and_eq_true, decide_eq_true_eq, Bool.not_eq_eq_eq_not, Bool.not_true] at h2'
        refine kLe_of_not_kLt (fun hc => ?_)
        have := lt_iff_kLt.mpr hc
        rw [h2'.2] at this
        exact absurd this (by simp)
      have hmin : ∀ j, 0 < j → j < h.length → parentIdx j = pos →
          kLe (hget h (2 * pos + 1 + 1)) (hget h j) := by
        intro j hj0 hjlen hpj
        rw [parentIdx] at hpj
        have : j = 2 * pos + 1 ∨ j = 2 * pos + 1 + 1 := by omega
        rcases this with rfl | rfl
        · exact hle
        · exact kLe_refl _
      obtain ⟨hd1, hd2⟩ := siftupLoop_step_invariants hpos hrlen (by omega)
        (by rw [parentIdx]; omega) hmin hD1 hD2
      exact ih _ _ _ (by rw [List.length_set]; omega) (by rw [List.length_set]; omega) hd1 hd2
    · -- move the left child up
      have hllen : 2 * pos + 1 < h.length := h1
      have hmin : ∀ j, 0 < j → j < h.length → parentIdx j = pos →
          kLe (hget h (2 * pos + 1)) (hget h j) := by
        intro j hj0 hjlen hpj
        rw [parentIdx] at hpj
        have hj : j = 2 * pos + 1 ∨ j = 2 * pos + 1 + 1 := by omega
        rcases hj with rfl | rfl
        · exact kLe_refl _
        · -- the right child exists, so the condition failed on the comparison
          have h2' := h2
          simp only [Bool.and_eq_true, decide_eq_true_eq, Bool.not_eq_eq_eq_not,
            Bool.not_true, not_and] at h2'
          have := h2' hjlen
          have hlt : (hget h (2 * pos + 1)).lt (hget h (2 * pos + 1 + 1)) = true := by
            cases hx : (hget h (2 * pos + 1)).lt (hget h (2 * pos + 1 + 1)) with
            | true => rfl
            | false => exact absurd hx this
          exact kLe_of_kLt (lt_iff_kLt.mp hlt)
      obtain ⟨hd1, hd2⟩ := siftupLoop_step_invariants hpos hllen (by omega)
        (by rw [parentIdx]; omega) hmin hD1 hD2
      exact ih _ _ _ (by rw [List.length_set]; omega) (by rw [List.length_set]; omega) hd1 hd2
    · -- no children: place the item and repair upwards
      have hget_eq : hget (h.set pos x) pos = x := hget_set_eq h hpos x
      dsimp only
      rw [siftdown, hget_eq]
      apply siftdownLoop_isHeap
      · exact Nat.le_refl _
      · rw [List.length_set]; exact hpos
      · intro j hj0 hjlen hjne
        rw [List.length_set] at hjlen
        by_cases hpj : parentIdx j = pos
        · have : j = 2 * pos + 1 ∨ j = 2 * pos + 1 + 1 := by
            rw [parentIdx] at hpj
            omega
          omega
        · rw [hget_set_ne h (fun hc => hpj hc.symm) x,
            hget_set_ne h (fun hc => hjne hc.symm) x]
          exact hD1 j hj0 hjlen hpj
      · intro hpos0 j hj0 hjlen hpj
        rw [List.length_set] at hjlen
        rw [parentIdx] at hpj
        omega
      · intro j hj0 hjlen hpj
        rw [List.length_set] at hjlen
        rw [parentIdx] at hpj
        omega

lemma siftup_zero_isHeap {H : List HuffmanNode} (hlen : 0 < H.length) (hAH : DD1 H 0) :
    IsHeap (siftup H 0) := by
  rw [siftup]
  exact siftupLoop_heap H.length H 0 (hget H 0) hlen (by omega) hAH
    (fun h0 => absurd h0 (by omega))

lemma heappop_isHeap {h : List HuffmanNode} (hh : IsHeap h) {x : HuffmanNode}
    {r : List HuffmanNode} (hp : heappop h = some (x, r)) : IsHeap r := by
  unfold heappop at hp
  cases hl : h.getLast? with
  | none => rw [hl] at hp; simp at hp
  | some y =>
    rw [hl] at hp
    obtain ⟨ys, rfl⟩ := List.getLast?_eq_some_iff.mp hl
    rw [List.dropLast_concat] at hp
    cases ys with
    | nil =>
      obtain ⟨rfl, rfl⟩ : y = x ∧ ([] : List HuffmanNode) = r := by simpa using hp
      exact isHeap_nil
    | cons z zs =>
      obtain ⟨rfl, rfl⟩ : hget (z :: zs) 0 = x ∧ siftup ((z :: zs).set 0 y) 0 = r := by
        simpa using hp
      apply siftup_zero_isHeap (by simp)
      intro j hj0 hjlen hpj
      rw [List.length_set] at hjlen
      have hplt : parentIdx j < j := by rw [parentIdx]; omega
      rw [hget_set_ne _ (show (0 : Nat) ≠ j by omega) y,
        hget_set_ne _ (show (0 : Nat) ≠ parentIdx j from fun hc => hpj hc.symm) y,
        ← hget_append_lt (z :: zs) [y] hjlen,
        ← hget_append_lt (z :: zs) [y] (by omega)]
      exact hh j hj0 (by simp at hjlen ⊢; omega)

lemma heappop_fst_eq {h : List HuffmanNode} {x : HuffmanNode} {r : List HuffmanNode}
    (hp : heappop h = some (x, r)) : x = hget h 0 := by
  unfold heappop at hp
  cases hl : h.getLast? with
  | none => rw [hl] at hp; simp at hp
  | some y =>
    rw [hl] at hp
    obtain ⟨ys, rfl⟩ := List.getLast?_eq_some_iff.mp hl
    rw [List.dropLast_concat] at hp
    cases ys with
    | nil =>
      obtain ⟨rfl, rfl⟩ : y = x ∧ ([] : List HuffmanNode) = r := by simpa using hp
      rfl
    | cons z zs =>
      obtain ⟨rfl, rfl⟩ : hget (z :: zs) 0 = x ∧ siftup ((z :: zs).set 0 y) 0 = r := by
        simpa using hp
      rw [hget_append_lt (z :: zs) [y] (by simp)]

lemma heappop_min {h : List HuffmanNode} (hh : IsHeap h) {x : HuffmanNode}
    {r : List HuffmanNode} (hp : heappop h = some (x, r)) : ∀ y ∈ h, kLe x y := by
  intro y hy
  rw [heappop_fst_eq hp]
  exact isHeap_min_mem hh hy

/-! ### Determinism of trie growth on heaps with pairwise distinct keys -/

/-- Distinct `(freq, char)` sort keys. -/
def kNe (a b : HuffmanNode) : Prop := ¬ (a.freq = b.freq ∧ a.char = b.char)

lemma kNe_symm : Symmetric kNe := fun _ _ hab hc => hab ⟨hc.1.symm, hc.2.symm⟩

lemma pop_eq_of_perm {h₁ h₂ : List HuffmanNode} {x₁ x₂ : HuffmanNode}
    {r₁ r₂ : List HuffmanNode} (hperm : List.Perm h₁ h₂) (hh₁ : IsHeap h₁) (hh₂ : IsHeap h₂)
    (hdist : h₁.Pairwise kNe) (hp₁ : heappop h₁ = some (x₁, r₁))
    (hp₂ : heappop h₂ = some (x₂, r₂)) : x₁ = x₂ ∧ List.Perm r₁ r₂ := by
  have hx₁ : x₁ ∈ h₁ := (heappop_perm hp₁).subset (List.mem_cons_self _ _)
  have hx₂ : x₂ ∈ h₂ := (heappop_perm hp₂).subset (List.mem_cons_self _ _)
  have hx₂' : x₂ ∈ h₁ := hperm.symm.subset hx₂
  have hle₁ : kLe x₁ x₂ := heappop_min hh₁ hp₁ x₂ hx₂'
  have hle₂ : kLe x₂ x₁ := heappop_min hh₂ hp₂ x₁ (hperm.subset hx₁)
  have hkey := kLe_antisymm_key hle₁ hle₂
  have hxx : x₁ = x₂ := by
    by_contra hne
    exact (List.Pairwise.forall kNe_symm hdist hx₁ hx₂' hne) ⟨hkey.1, hkey.2⟩
  refine ⟨hxx, ?_⟩
  have hchain := (heappop_perm hp₁).trans (hperm.trans (heappop_perm hp₂).symm)
  rw [hxx] at hchain
  exact hchain.cons_inv

/-- The character multiset of the leaves below a node. -/
def nodeChars (n : HuffmanNode) : List Nat := (leafNodes n).map HuffmanNode.char

/-- A well-formed live node: its `char` is the minimum leaf character of
its subtree. -/
def WFnode (n : HuffmanNode) : Prop :=
  n.char ∈ nodeChars n ∧ ∀ c ∈ nodeChars n, n.char ≤ c

/-- Two nodes over disjoint leaf-character sets. -/
def charsDisj (a b : HuffmanNode) : Prop := ∀ c ∈ nodeChars a, c ∉ nodeChars b

lemma charsDisj_symm : Symmetric charsDisj := fun _ _ hab c hcb hca => hab c hca hcb

lemma kNe_of_WF_disj {a b : HuffmanNode} (ha : WFnode a) (hb : WFnode b)
    (hd : charsDisj a b) : kNe a b := by
  intro hc
  refine hd a.char ha.1 ?_
  rw [hc.2]
  exact hb.1

/-- The node `grow_trie` pushes after merging `z` and `o`. -/
def mergedNode (z o : HuffmanNode) : HuffmanNode :=
  HuffmanNode.make (if o.char < z.char then o.char else z.char) (z.freq + o.freq)
    (some z) (some o)

lemma mergedNode_chars (z o : HuffmanNode) :
    nodeChars (mergedNode z o) = nodeChars z ++ nodeChars o := by
  rw [mergedNode, nodeChars, show HuffmanNode.make (if o.char < z.char then o.char else z.char)
    (z.freq + o.freq) (some z) (some o) = HuffmanNode.inner
      (if o.char < z.char then o.char else z.char) (z.freq + o.freq) z o from rfl,
    show leafNodes (HuffmanNode.inner (if o.char < z.char then o.char else z.char)
      (z.freq + o.freq) z o) = leafNodes z ++ leafNodes o from rfl, List.map_append]
  rfl

lemma mergedNode_char (z o : HuffmanNode) :
    (mergedNode z o).char = if o.char < z.char then o.char else z.char := rfl

lemma merged_WF {z o : HuffmanNode} (hz : WFnode z) (ho : WFnode o) :
    WFnode (mergedNode z o) := by
  constructor
  · rw [mergedNode_chars, mergedNode_char]
    split_ifs with h
    · exact List.mem_append_right _ ho.1
    · exact List.mem_append_left _ hz.1
  · intro c hc
    rw [mergedNode_chars] at hc
    rw [mergedNode_char]
    rcases List.mem_append.mp hc with hcz | hco
    · have := hz.2 c hcz
      split_ifs with h <;> omega
    · have := ho.2 c hco
      split_ifs with h <;> omega

lemma merged_disj {z o y : HuffmanNode} (hzy : charsDisj z y) (hoy : charsDisj o y) :
    charsDisj (mergedNode z o) y := by
  intro c hc
  rw [mergedNode_chars] at hc
  rcases List.mem_append.mp hc with hc | hc
  · exact hzy c hc
  · exact hoy c hc

lemma growTrieLoop_det : ∀ (fuel : Nat) (h₁ h₂ : List HuffmanNode), List.Perm h₁ h₂ →
    IsHeap h₁ → IsHeap h₂ → (∀ x ∈ h₁, WFnode x) → h₁.Pairwise charsDisj →
    List.Perm (growTrieLoop fuel h₁) (growTrieLoop fuel h₂) := by
  intro fuel
  induction fuel with
  | zero => intro h₁ h₂ hperm _ _ _ _; exact hperm
  | succ fuel ih =>
    intro h₁ h₂ hperm hh₁ hh₂ hWF hdisj
    rw [growTrieLoop, growTrieLoop]
    have hlen : h₁.length = h₂.length := hperm.length_eq
    by_cases hl : 1 < h₁.length
    · rw [if_pos hl, if_pos (hlen ▸ hl)]
      obtain ⟨z₁, t₁, hp₁⟩ := heappop_isSome (h := h₁)
        (by intro hc; rw [hc] at hl; simp at hl)
      obtain ⟨z₂, t₂, hp₂⟩ := heappop_isSome (h := h₂)
        (by intro hc; rw [hc] at hlen; simp only [List.length_nil] at hlen; omega)
      rw [hp₁, hp₂]
      dsimp only
      have hdistNe : h₁.Pairwise kNe :=
        List.Pairwise.imp_of_mem (fun ha hb hd => kNe_of_WF_disj (hWF _ ha) (hWF _ hb) hd)
          hdisj
      obtain ⟨hz_eq, ht_perm⟩ := pop_eq_of_perm hperm hh₁ hh₂ hdistNe hp₁ hp₂
      subst hz_eq
      have ht₁len : t₁.length + 1 = h₁.length := heappop_length hp₁
      obtain ⟨o₁, u₁, hq₁⟩ := heappop_isSome (h := t₁)
        (by intro hc; rw [hc] at ht₁len; simp at ht₁len; omega)
      have ht₂len : t₂.length + 1 = h₂.length := heappop_length hp₂
      obtain ⟨o₂, u₂, hq₂⟩ := heappop_isSome (h := t₂)
        (by intro hc; rw [hc] at ht₂len; simp at ht₂len; omega)
      rw [hq₁, hq₂]
      dsimp only
      have hht₁ : IsHeap t₁ := heappop_isHeap hh₁ hp₁
      have hht₂ : IsHeap t₂ := heappop_isHeap hh₂ hp₂
      have hWFt : ∀ x ∈ t₁, WFnode x :=
        fun x hx => hWF x ((heappop_perm hp₁).subset (List.mem_cons_of_mem _ hx))
      have hdisj_zt : (z₁ :: t₁).Pairwise charsDisj :=
        ((heappop_perm hp₁).pairwise_iff (fun hab => charsDisj_symm hab)).mpr hdisj
      have hdisjt : t₁.Pairwise charsDisj := (List.pairwise_cons.mp hdisj_zt).2
      have hdistNet : t₁.Pairwise kNe :=
        List.Pairwise.imp_of_mem (fun ha hb hd => kNe_of_WF_disj (hWFt _ ha) (hWFt _ hb) hd)
          hdisjt
      obtain ⟨ho_eq, hu_perm⟩ := pop_eq_of_perm ht_perm hht₁ hht₂ hdistNet hq₁ hq₂
      subst ho_eq
      have hzou : (z₁ :: o₁ :: u₁).Pairwise charsDisj :=
        (((heappop_perm hq₁).cons z₁).pairwise_iff (fun hab => charsDisj_symm hab)).mpr hdisj_zt
      have hz₁ : z₁ ∈ h₁ := (heappop_perm hp₁).subset (List.mem_cons_self _ _)
      have ho₁ : o₁ ∈ t₁ := (heappop_perm hq₁).subset (List.mem_cons_self _ _)
      have hWFz : WFnode z₁ := hWF _ hz₁
      have hWFo : WFnode o₁ := hWFt _ ho₁
      show List.Perm (growTrieLoop fuel (heappush u₁ (mergedNode z₁ o₁)))
        (growTrieLoop fuel (heappush u₂ (mergedNode z₁ o₁)))
      apply ih
      · exact (heappush_perm u₁ _).trans ((hu_perm.cons _).trans (heappush_perm u₂ _).symm)
      · exact heappush_isHeap (heappop_isHeap hht₁ hq₁) _
      · exact heappush_isHeap (heappop_isHeap hht₂ hq₂) _
      · intro x hx
        have hx' : x ∈ mergedNode z₁ o₁ :: u₁ := (heappush_perm u₁ _).subset hx
        rcases List.mem_cons.mp hx' with rfl | hx'
        · exact merged_WF hWFz hWFo
        · exact hWFt x ((heappop_perm hq₁).subset (List.mem_cons_of_mem _ hx'))
      · refine ((heappush_perm u₁ (mergedNode z₁ o₁)).pairwise_iff (fun hab => charsDisj_symm hab)).mpr ?_
        rw [List.pairwise_cons]
        obtain ⟨hz_all, hou⟩ := List.pairwise_cons.mp hzou
        obtain ⟨ho_all, hu⟩ := List.pairwise_cons.mp hou
        constructor
        · intro y hy
          exact merged_disj (hz_all y (List.mem_cons_of_mem _ hy)) (ho_all y hy)
        · exact hu
    · have hl₂ : ¬ 1 < h₂.length := by rw [← hlen]; exact hl
      rw [if_neg hl, if_neg hl₂]
      exact hperm

lemma grow_trie_det {h₁ h₂ : List HuffmanNode} (hperm : List.Perm h₁ h₂) (hh₁ : IsHeap h₁)
    (hh₂ : IsHeap h₂) (hWF : ∀ x ∈ h₁, WFnode x) (hdisj : h₁.Pairwise charsDisj) :
    grow_trie h₁ = grow_trie h₂ := by
  rw [grow_trie, grow_trie]
  have hlen := hperm.length_eq
  rw [← hlen]
  have hfin := growTrieLoop_det h₁.length h₁ h₂ hperm hh₁ hh₂ hWF hdisj
  cases Nat.eq_zero_or_pos h₁.length with
  | inl h0 =>
    have e1 : h₁ = [] := List.length_eq_zero.mp h0
    have e2 : h₂ = [] := List.length_eq_zero.mp (by omega)
    rw [e1, e2]
  | inr h0 =>
    have hl₁ : (growTrieLoop h₁.length h₁).length = 1 :=
      growTrieLoop_length_eq_one _ _ h0 (by omega)
    have hl₂ : (growTrieLoop h₁.length h₂).length = 1 :=
      growTrieLoop_length_eq_one _ _ (by omega) (by omega)
    obtain ⟨y₁, hy₁⟩ := List.length_eq_one.mp hl₁
    obtain ⟨y₂, hy₂⟩ := List.length_eq_one.mp hl₂
    have hyy : y₁ = y₂ := by
      have hfin' := hfin
      rw [hy₁, hy₂] at hfin'
      have := hfin'.subset (List.mem_cons_self y₁ [])
      simpa using this
    rw [hy₁, hy₂, hyy]

/-! ### C4 amended: determinism for corpora without the sentinel -/

lemma foldl_push_isHeap (g : Nat → HuffmanNode) :
    ∀ (l : List Nat) (s : List HuffmanNode), IsHeap s →
      IsHeap (l.foldl (fun h item => heappush h (g item)) s) := by
  intro l
  induction l with
  | nil => intro s hs; exact hs
  | cons c l ih => intro s hs; exact ih _ (heappush_isHeap hs _)

lemma initial_heap_isHeap (corpus chars : List Nat) : IsHeap (initial_heap corpus chars) := by
  rw [initial_heap]
  exact foldl_push_isHeap _ chars _ (heappush_isHeap isHeap_nil _)

lemma leaf_WF (c f : Nat) : WFnode (HuffmanNode.leaf c f) := by
  constructor
  · exact List.mem_cons_self _ _
  · intro c' hc'
    have hcc : c' = c := by simpa [nodeChars, leafNodes] using hc'
    rw [hcc]
    exact Nat.le_refl c

lemma initial_heap_WF (corpus chars : List Nat) :
    ∀ x ∈ initial_heap corpus chars, WFnode x := by
  intro x hx
  have hx' := (initial_heap_perm corpus chars).subset hx
  rcases List.mem_cons.mp hx' with rfl | hx''
  · exact leaf_WF _ _
  · obtain ⟨item, _, rfl⟩ := List.mem_map.mp hx''
    exact leaf_WF _ _

lemma initial_heap_disj (corpus chars : List Nat) (hnd : chars.Nodup)
    (hmem : ∀ c, c ∈ chars ↔ c ∈ corpus) (hetb : ETB_CHAR ∉ corpus) :
    (initial_heap corpus chars).Pairwise charsDisj := by
  refine ((initial_heap_perm corpus chars).pairwise_iff
    (fun hab => charsDisj_symm hab)).mpr ?_
  rw [List.pairwise_cons]
  constructor
  · intro y hy
    obtain ⟨item, hitem, rfl⟩ := List.mem_map.mp hy
    intro c hc hc'
    have hc23 : c = ETB_CHAR := by simpa [nodeChars, leafNodes] using hc
    have hcit : c = item := by simpa [nodeChars, leafNodes] using hc'
    have hieq : item = ETB_CHAR := hcit.symm.trans hc23
    exact hetb (hieq ▸ (hmem item).mp hitem)
  · rw [List.pairwise_map]
    refine hnd.imp ?_
    intro a b hab c hca hcb
    have h1 : c = a := by simpa [nodeChars, leafNodes] using hca
    have h2 : c = b := by simpa [nodeChars, leafNodes] using hcb
    exact hab (h1.symm.trans h2 ▸ rfl)

lemma initial_heap_congr {corpus₁ chars₁ corpus₂ chars₂ : List Nat}
    (hnd₁ : chars₁.Nodup) (hmem₁ : ∀ c, c ∈ chars₁ ↔ c ∈ corpus₁)
    (hnd₂ : chars₂.Nodup) (hmem₂ : ∀ c, c ∈ chars₂ ↔ c ∈ corpus₂)
    (hcount : ∀ c, corpus₁.count c = corpus₂.count c) :
    List.Perm (initial_heap corpus₁ chars₁) (initial_heap corpus₂ chars₂) := by
  have hmemc : ∀ a, a ∈ corpus₁ ↔ a ∈ corpus₂ := by
    intro a
    rw [← List.count_pos_iff, ← List.count_pos_iff, hcount a]
  have hchars : List.Perm chars₁ chars₂ := by
    apply (List.perm_ext_iff_of_nodup hnd₁ hnd₂).mpr
    intro a
    rw [hmem₁, hmem₂, hmemc]
  have hmap : (chars₂.map (fun item => HuffmanNode.leaf item (corpus₁.count item))) =
      (chars₂.map (fun item => HuffmanNode.leaf item (corpus₂.count item))) :=
    List.map_congr_left (fun a _ => by rw [hcount a])
  refine (initial_heap_perm corpus₁ chars₁).trans
    (List.Perm.trans ?_ (initial_heap_perm corpus₂ chars₂).symm)
  refine List.Perm.cons _ ?_
  rw [← hmap]
  exact hchars.map _

lemma construct_det {corpus₁ chars₁ corpus₂ chars₂ : List Nat}
    (h₁ : ValidCharOrder corpus₁ chars₁) (h₂ : ValidCharOrder corpus₂ chars₂)
    (hcount : ∀ c, corpus₁.count c = corpus₂.count c) (hetb : ETB_CHAR ∉ corpus₁) :
    construct corpus₁ chars₁ = construct corpus₂ chars₂ := by
  obtain ⟨hnd₁, hmem₁⟩ := h₁
  obtain ⟨hnd₂, hmem₂⟩ := h₂
  have hmemc : ∀ a, a ∈ corpus₁ ↔ a ∈ corpus₂ := by
    intro a
    rw [← List.count_pos_iff, ← List.count_pos_iff, hcount a]
  have hetb₂ : ETB_CHAR ∉ corpus₂ := fun hc => hetb ((hmemc ETB_CHAR).mpr hc)
  by_cases hc : 0 < corpus₁.length
  · have hc₂ : 0 < corpus₂.length := by
      obtain ⟨a, ha⟩ := List.exists_mem_of_length_pos hc
      exact List.length_pos.mpr (List.ne_nil_of_mem ((hmemc a).mp ha))
    rw [construct, construct, if_pos hc, if_pos hc₂]
    have hgrow : grow_trie (initial_heap corpus₁ chars₁) =
        grow_trie (initial_heap corpus₂ chars₂) :=
      grow_trie_det (initial_heap_congr hnd₁ hmem₁ hnd₂ hmem₂ hcount)
        (initial_heap_isHeap _ _) (initial_heap_isHeap _ _)
        (initial_heap_WF _ _) (initial_heap_disj _ _ hnd₁ hmem₁ hetb)
    rw [hgrow]
  · have hc₂ : ¬ 0 < corpus₂.length := by
      intro hpos
      obtain ⟨a, ha⟩ := List.exists_mem_of_length_pos hpos
      exact hc (List.length_pos.mpr (List.ne_nil_of_mem ((hmemc a).mpr ha)))
    rw [construct, construct, if_neg hc, if_neg hc₂]

/-- C4 amended: two codecs constructed from corpora which do not contain
the sentinel character and which have identical character-frequency
multisets have identical encoding maps, regardless of the enumeration
order of the distinct characters. -/
theorem c4_amended (corpus₁ chars₁ corpus₂ chars₂ : List Nat)
    (h₁ : ValidCharOrder corpus₁ chars₁) (h₂ : ValidCharOrder corpus₂ chars₂)
    (hcount : ∀ c, corpus₁.count c = corpus₂.count c) (hetb : ETB_CHAR ∉ corpus₁) :
    get_encoding_map (construct corpus₁ chars₁) =
      get_encoding_map (construct corpus₂ chars₂) := by
  rw [construct_det ⟨h₁.1, h₁.2⟩ ⟨h₂.1, h₂.2⟩ hcount hetb]

/-- Witness for the amended C4: the corpora `"ab"` and `"ba"` with the two
enumeration orders yield the same encoding map. -/
theorem c4_amended_witness :
    ValidCharOrder [97, 98] [97, 98] ∧ ValidCharOrder [98, 97] [98, 97] ∧
    (∀ c : Nat, ([97, 98] : List Nat).count c = ([98, 97] : List Nat).count c) ∧
    ETB_CHAR ∉ ([97, 98] : List Nat) ∧
    get_encoding_map (construct [97, 98] [97, 98]) =
      get_encoding_map (construct [98, 97] [98, 97]) := by
  have hv₁ : ValidCharOrder [97, 98] [97, 98] := ⟨by decide, fun c => Iff.rfl⟩
  have hv₂ : ValidCharOrder [98, 97] [98, 97] := ⟨by decide, fun c => Iff.rfl⟩
  have hcount : ∀ c : Nat, ([97, 98] : List Nat).count c = ([98, 97] : List Nat).count c := by
    intro c
    simp [List.count_cons]
    omega
  exact ⟨hv₁, hv₂, hcount, by decide,
    c4_amended [97, 98] [97, 98] [98, 97] [98, 97] hv₁ hv₂ hcount (by decide)⟩

/-! ### C6: the worked example -/

/-- C6: for any enumeration order of the distinct characters of
`"ABBBCC"`, the constructed codec has leaf frequencies A:1, B:3, C:2 and
sentinel:1, compressing `"ABBBCC"` yields the two bytes with MSB-first
bit patterns `10100011` and `11100000`, and decompressing those bytes
returns exactly `"ABBBCC"`. -/
theorem c6_worked_example (chars : List Nat) (hnd : chars.Nodup)
    (hmem : ∀ c, c ∈ chars ↔ c ∈ corpusABBBCC) :
    corpusABBBCC.count 65 = 1 ∧ corpusABBBCC.count 66 = 3 ∧ corpusABBBCC.count 67 = 2 ∧
    (∃ root, (construct corpusABBBCC chars).trie_root = some root ∧
      List.Perm (leafNodes root)
        [HuffmanNode.leaf ETB_CHAR 1, HuffmanNode.leaf 65 1, HuffmanNode.leaf 66 3,
          HuffmanNode.leaf 67 2]) ∧
    compress_message (construct corpusABBBCC chars) corpusABBBCC = [163, 224] ∧
    byte_to_bitstring 163 = [true, false, true, false, false, false, true, true] ∧
    byte_to_bitstring 224 = [true, true, true, false, false, false, false, false] ∧
    decompress (construct corpusABBBCC chars) [163, 224] = Except.ok corpusABBBCC := by
  have hvalid : ValidCharOrder corpusABBBCC [65, 66, 67] := by
    constructor
    · decide
    · intro c
      simp only [corpusABBBCC, List.mem_cons, List.not_mem_nil, or_false]
      omega
  have hcons : construct corpusABBBCC chars = codecABBBCC :=
    construct_det ⟨hnd, hmem⟩ hvalid (fun _ => rfl) (by decide)
  rw [hcons]
  refine ⟨by decide, by decide, by decide, ⟨_, rfl, by decide⟩, by decide, by decide,
    by decide, by decide⟩

/-- Witness for C6 with the enumeration order `A`, `B`, `C`. -/
theorem c6_worked_example_witness :
    ([65, 66, 67] : List Nat).Nodup ∧
    compress_message (construct corpusABBBCC [65, 66, 67]) corpusABBBCC = [163, 224] ∧
    decompress (construct corpusABBBCC [65, 66, 67]) [163, 224] = Except.ok corpusABBBCC := by
  have hmem : ∀ c, c ∈ ([65, 66, 67] : List Nat) ↔ c ∈ corpusABBBCC := by
    intro c
    simp only [corpusABBBCC, List.mem_cons, List.not_mem_nil, or_false]
    omega
  have h := c6_worked_example [65, 66, 67] (by decide) hmem
  exact ⟨by decide, h.2.2.2.2.1, h.2.2.2.2.2.2.2⟩
